import Mathlib

/-!
# go-memory-filesystem: an in-memory tree of directories and files

Shallow embedding of the Go package `filesystem` (`errors.go`, `file.go`,
`dir.go`, `filesystem.go`) and a verification of its specification.

## Modelling conventions

* A Go call either returns or panics.  `Res α` has the three outcomes
  `ok a` (returned, `err == nil`), `err e` (returned a non-nil `error`) and
  `panic` (run-time panic; the only one the package can raise is the
  out-of-range index `path[0]` on an empty slice).
* A method with a pointer receiver that mutates the receiver returns the
  receiver's new value next to its outcome (explicit state passing).
* The tree is acyclic and no node is ever aliased, moved or removed, so the
  heap of `*dir` / `*file` objects is the tree itself: a `dir` value holds the
  values of its children.  A pointer obtained by walking a segment list from
  a directory denotes the node at that place; a mutation made through such a
  pointer is written back at that place (`Store` under the same key in
  `CreatePath`, `dir.writeBack` in the facade).
* `sync.Map` is an association list read by first match (`Load`) and written
  by replacing the first match or appending (`Store`); only sequential use is
  modelled.
* Go strings are Lean strings; `strings.Split` is only ever called with the
  one-character separator `/`.
* `fileSystem.PrettyPrint` hands `dir.PrettyPrint()` to `json.MarshalIndent` and
  mutates nothing; the map is modelled, its JSON text is not.
-/

namespace filesystem

/-! ## errors.go and the error values built with `fmt.Errorf` -/

/-- Go `error` values the package produces: a `*pathNotFoundError`, the result
of `fmt.Errorf` without `%w` (carrying its formatted message), and the result
of `fmt.Errorf` with `%w` (its formatted message and the wrapped error). -/
inductive error where
  | pathNotFoundError (path : List String)
  | errorString (s : String)
  | wrapError (msg : String) (err : error)
deriving DecidableEq, Repr

/-- Outcome of a Go call: returned a value, returned an error, or panicked. -/
inductive Res (α : Type) where
  | ok (a : α)
  | err (e : error)
  | panic
deriving DecidableEq, Repr

/-- The sentinel `var PathNotFoundError = &pathNotFoundError{}`. -/
def PathNotFoundError : error := error.pathNotFoundError []

/-- Constructor `NewPathNotFoundError(path)`. -/
def NewPathNotFoundError (path : List String) : error := error.pathNotFoundError path

/-- Method `Error()`: `strings.Join(e.path, "/")` inside the fixed message for a
`*pathNotFoundError`, the formatted message for the `fmt.Errorf` values. -/
def error.Error : error → String
  | .pathNotFoundError path => "path '" ++ "/".intercalate path ++ "' does not exist"
  | .errorString s => s
  | .wrapError msg _ => msg

/-- Method `(*pathNotFoundError).Is`: true exactly when the argument is a
`*pathNotFoundError` (the type assertion succeeds). -/
def pathNotFoundError.Is (err : error) : Bool :=
  match err with
  | .pathNotFoundError _ => true
  | _ => false

/-- Standard library `errors.Is(err, target)`: walks the `Unwrap` chain of `err`
and asks each `*pathNotFoundError` on it through its `Is` method; the
`fmt.Errorf` values have no `Is` method and only `%w` values unwrap.  (The
pointer comparison `err == target` that `errors.Is` also makes can only
succeed on a `*pathNotFoundError`, for which `Is` answers the same.) -/
def errors.Is : error → error → Bool
  | .pathNotFoundError _, target => pathNotFoundError.Is target
  | .errorString _, _ => false
  | .wrapError _ inner, target => errors.Is inner target

/-- Formatting of a `[]string` under the verb `%s`: `[a b c]`. -/
def fmt.sliceString (path : List String) : String :=
  "[" ++ " ".intercalate path ++ "]"

/-- Splitting of a character list at every occurrence of `sep`: `k` separators
give `k + 1` pieces, empty pieces included. -/
def splitChars (sep : Char) : List Char → List (List Char)
  | [] => [[]]
  | c :: cs =>
    if c = sep then [] :: splitChars sep cs
    else
      match splitChars sep cs with
      | [] => [[c]]
      | seg :: segs => (c :: seg) :: segs

/-- Standard library `strings.Split(s, sep)` for a one-character separator. -/
def strings.Split (s : String) (sep : Char) : List String :=
  (splitChars sep s.data).map String.mk

/-! ## file.go -/

/-- The struct `file`. -/
structure file where
  data : String
  name : String
deriving DecidableEq, Repr

/-- Method `Append`: `f.data += data`. -/
def file.Append (f : file) (data : String) : file :=
  ⟨f.data ++ data, f.name⟩

/-- Method `Data`. -/
def file.Data (f : file) : String := f.data

/-- Method `Name` of a file. -/
def file.Name (f : file) : String := f.name

/-! ## dir.go -/

/-- The struct `fileSystemOptions`. -/
structure fileSystemOptions where
  pFlagDisabled : Bool
deriving DecidableEq, Repr

/-- A value of the interface `Node`: a `*file` or a `*dir`. -/
inductive NodeOf (D : Type) where
  | File (f : file)
  | Dir (d : D)
deriving Repr

/-- The struct `dir`: its options, its name and its `sync.Map` of children. -/
inductive dir where
  | mk (opt : fileSystemOptions) (name : String) (nodes : List (String × NodeOf dir))

/-- The interface `Node`. -/
abbrev Node := NodeOf dir

/-- The `sync.Map` of a directory, from child name to child. -/
abbrev syncMap := List (String × Node)

/-- Field `opt` of a directory. -/
def dir.opt : dir → fileSystemOptions
  | .mk opt _ _ => opt

/-- Field `name` of a directory. -/
def dir.name : dir → String
  | .mk _ name _ => name

/-- Field `nodes` of a directory. -/
def dir.nodes : dir → syncMap
  | .mk _ _ nodes => nodes

/-- The directory with its `nodes` map replaced (the map is mutated in place in
Go; `opt` and `name` are never assigned after construction). -/
def dir.withNodes (d : dir) (nodes : syncMap) : dir :=
  dir.mk d.opt d.name nodes

/-- Method `sync.Map.Load`. -/
def syncMap.Load : syncMap → String → Option Node
  | [], _ => none
  | (k, v) :: rest, key => if k = key then some v else syncMap.Load rest key

/-- Method `sync.Map.Store`. -/
def syncMap.Store : syncMap → String → Node → syncMap
  | [], key, value => [(key, value)]
  | (k, v) :: rest, key, value =>
    if k = key then (key, value) :: rest else (k, v) :: syncMap.Store rest key value

/-- Method `Name` of a directory. -/
def dir.Name (d : dir) : String := d.name

/-- Method `Name` of the interface `Node`. -/
def NodeOf.Name : Node → String
  | .File f => f.Name
  | .Dir d => d.Name

/-- Method `HasChild`. -/
def dir.HasChild (d : dir) (name : String) : Bool :=
  match syncMap.Load d.nodes name with
  | none => false
  | some _ => true

/-- Method `GetChild`. -/
def dir.GetChild (d : dir) (name : String) : Res Node :=
  match syncMap.Load d.nodes name with
  | none => .err (NewPathNotFoundError [name])
  | some child => .ok child

/-- Method `CreateDir`: the receiver afterwards, and the new directory. -/
def dir.CreateDir (d : dir) (name : String) : dir × Res dir :=
  if d.HasChild name then
    (d, .err (.errorString (name ++ " dir already exists")))
  else
    let new := dir.mk d.opt name []
    (d.withNodes (syncMap.Store d.nodes name (.Dir new)), .ok new)

/-- Method `CreateFile`: the receiver afterwards, and the outcome. -/
def dir.CreateFile (d : dir) (name : String) (data : String) : dir × Res Unit :=
  if d.HasChild name then
    (d, .err (.errorString ("file already exists: " ++ name)))
  else
    (d.withNodes (syncMap.Store d.nodes name (.File ⟨data, name⟩)), .ok ())

/-- First half of `CreatePath`: `d.GetChild(name)`, and `d.CreateDir(name)` when
the child is missing.  Gives the receiver afterwards and the child. -/
def dir.getOrCreate (d : dir) (name : String) : dir × Res Node :=
  match d.GetChild name with
  | .ok child => (d, .ok child)
  | .panic => (d, .panic)
  | .err err =>
    if !errors.Is err PathNotFoundError then (d, .err err)
    else
      match d.CreateDir name with
      | (d1, .ok child) => (d1, .ok (.Dir child))
      | (d1, .err err) => (d1, .err err)
      | (d1, .panic) => (d1, .panic)

/-- Method `CreatePath`: the receiver afterwards, and the final directory.
`path[0]` on an empty slice panics.  The recursive call works on the child
directory in place, so the child's new value is stored back under its name. -/
def dir.CreatePath (d : dir) : List String → dir × Res dir
  | [] => (d, .panic)
  | name :: rest =>
    match d.getOrCreate name with
    | (d1, .panic) => (d1, .panic)
    | (d1, .err err) => (d1, .err err)
    | (d1, .ok (.File _)) =>
      (d1, .err (.errorString ("path is invalid: " ++ fmt.sliceString (name :: rest))))
    | (d1, .ok (.Dir childDir)) =>
      if (name :: rest).length = 1 then (d1, .ok childDir)
      else
        match childDir.CreatePath rest with
        | (childDir1, r) => (d1.withNodes (syncMap.Store d1.nodes name (.Dir childDir1)), r)

/-- Method `Find`.  `path[0]` on an empty slice panics. -/
def dir.Find (d : dir) : List String → Res Node
  | [] => .panic
  | name :: rest =>
    match d.GetChild name with
    | .panic => .panic
    | .err _ => .err (NewPathNotFoundError (name :: rest))
    | .ok child =>
      if (name :: rest).length = 1 then .ok child
      else
        match child with
        | .File _ =>
          .err (.errorString ("path is invalid: " ++ fmt.sliceString (name :: rest)))
        | .Dir childDir => childDir.Find rest

/-- Write-back of the directory reached from `d` along `path` (a pointer that
`Find` or `CreatePath` returned for `path`) after it was mutated to `new`. -/
def dir.writeBack (d : dir) : List String → dir → dir
  | [], new => new
  | name :: rest, new =>
    match syncMap.Load d.nodes name with
    | some (.Dir childDir) =>
      d.withNodes (syncMap.Store d.nodes name (.Dir (childDir.writeBack rest new)))
    | _ => d

/-- A value held by the `map[string]interface{}` that `PrettyPrint` builds: a
string (the content of a file) or a nested map (a directory). -/
inductive Value where
  | str (s : String)
  | obj (m : List (String × Value))

/-- The Go map `map[string]interface{}`, as the list of its entries, each key
once (the iteration order of a Go map is unspecified; the list keeps the order
of first assignment). -/
abbrev goMap := List (String × Value)

/-- Assignment `m[key] = value`. -/
def goMap.set : goMap → String → Value → goMap
  | [], key, value => [(key, value)]
  | (k, v) :: rest, key, value =>
    if k = key then (key, value) :: rest else (k, v) :: goMap.set rest key value

/-- Index expression `v, ok := m[key]`. -/
def goMap.get : goMap → String → Option Value
  | [], _ => none
  | (k, v) :: rest, key => if k = key then some v else goMap.get rest key

mutual
/-- Method `PrettyPrint` of a directory: starts from the empty map and runs the
`Range` callback over the children. -/
def dir.PrettyPrint : dir → goMap
  | .mk _ _ nodes => syncMap.RangePrettyPrint nodes []
/-- The call `d.nodes.Range(func(key, value) ...)` of `PrettyPrint`, run over the
entries of the child map with the map `m` built so far: a directory child is
assigned its own `PrettyPrint()`, a file child its `Data()`; `fmt.Sprint(key)`
is the key itself. -/
def syncMap.RangePrettyPrint : List (String × NodeOf dir) → goMap → goMap
  | [], m => m
  | (key, .Dir d) :: rest, m =>
    syncMap.RangePrettyPrint rest (goMap.set m key (.obj d.PrettyPrint))
  | (key, .File f) :: rest, m =>
    syncMap.RangePrettyPrint rest (goMap.set m key (.str f.Data))
end

/-! ## filesystem.go -/

/-- The functional option type `fileSystemOption`. -/
abbrev fileSystemOption := fileSystemOptions → fileSystemOptions

/-- Option `DisablePFlag`. -/
def DisablePFlag : fileSystemOption :=
  fun opt => { opt with pFlagDisabled := true }

/-- The struct `fileSystem`, which embeds the root `*dir`. -/
structure fileSystem where
  dir : dir

/-- Constructor `NewFileSystem`. -/
def NewFileSystem (opts : List fileSystemOption) : fileSystem :=
  ⟨dir.mk (opts.foldl (fun opt o => o opt) ⟨false⟩) "" []⟩

/-- Helper `parsePathSegments`. -/
def fileSystem.parsePathSegments (_fs : fileSystem) (path : String) : List String × Nat :=
  let segments := strings.Split path '/'
  (segments, segments.length)

/-- Method `Mkdir`: the filesystem afterwards, and the outcome. -/
def fileSystem.Mkdir (fs : fileSystem) (path : String) : fileSystem × Res Unit :=
  match fs.parsePathSegments path with
  | (segments, segmentsLen) =>
    if !fs.dir.opt.pFlagDisabled then
      match fs.dir.CreatePath segments with
      | (root1, .ok _) => (⟨root1⟩, .ok ())
      | (root1, .err err) => (⟨root1⟩, .err err)
      | (root1, .panic) => (⟨root1⟩, .panic)
    else
      let parentPath := segments.take (segmentsLen - 1)
      match fs.dir.Find parentPath with
      | .panic => (fs, .panic)
      | .err err => (fs, .err err)
      | .ok (.File _) => (fs, .err (.errorString ("path is invalid: " ++ path)))
      | .ok (.Dir parentDir) =>
        match segments[segmentsLen - 1]? with
        | none => (fs, .panic)
        | some dirName =>
          match parentDir.CreateDir dirName with
          | (parentDir1, .ok _) => (⟨fs.dir.writeBack parentPath parentDir1⟩, .ok ())
          | (parentDir1, .panic) => (⟨fs.dir.writeBack parentPath parentDir1⟩, .panic)
          | (parentDir1, .err err) =>
            (⟨fs.dir.writeBack parentPath parentDir1⟩,
              .err (.wrapError ("error adding child dir " ++ path ++ ": " ++ err.Error) err))

/-- Method `ReadFile` (it mutates nothing). -/
def fileSystem.ReadFile (fs : fileSystem) (path : String) : Res String :=
  let segments := strings.Split path '/'
  match fs.dir.Find segments with
  | .panic => .panic
  | .err err => .err err
  | .ok (.Dir _) => .err (.errorString ("error reading non-file: " ++ path))
  | .ok (.File file) => .ok file.Data

/-- The ancestor lookup of `WriteFile`: `CreatePath` in permissive mode, `Find`
in restrictive mode.  Gives the root afterwards and the `parent` node. -/
def fileSystem.resolveParent (fs : fileSystem) (parentPath : List String) :
    filesystem.dir × Res Node :=
  if !fs.dir.opt.pFlagDisabled then
    match fs.dir.CreatePath parentPath with
    | (root1, .ok parent) => (root1, .ok (.Dir parent))
    | (root1, .err err) => (root1, .err err)
    | (root1, .panic) => (root1, .panic)
  else
    (fs.dir, fs.dir.Find parentPath)

/-- Method `WriteFile`: the filesystem afterwards, and the outcome. -/
def fileSystem.WriteFile (fs : fileSystem) (path : String) (data : String) :
    fileSystem × Res Unit :=
  match fs.parsePathSegments path with
  | (segments, segmentsLen) =>
    let parentPath := segments.take (segmentsLen - 1)
    match fs.resolveParent parentPath with
    | (root1, .panic) => (⟨root1⟩, .panic)
    | (root1, .err err) => (⟨root1⟩, .err err)
    | (root1, .ok (.File _)) => (⟨root1⟩, .err (.errorString ("path is invalid: " ++ path)))
    | (root1, .ok (.Dir parentDir)) =>
      match segments[segmentsLen - 1]? with
      | none => (⟨root1⟩, .panic)
      | some fileName =>
        match parentDir.GetChild fileName with
        | .panic => (⟨root1⟩, .panic)
        | .err _ =>
          match parentDir.CreateFile fileName data with
          | (dir1, .ok _) => (⟨root1.writeBack parentPath dir1⟩, .ok ())
          | (dir1, .panic) => (⟨root1.writeBack parentPath dir1⟩, .panic)
          | (dir1, .err err) =>
            (⟨root1.writeBack parentPath dir1⟩,
              .err (.wrapError ("error writing file " ++ path ++ ": " ++ err.Error) err))
        | .ok (.Dir _) =>
          (⟨root1⟩, .err (.errorString ("error writing to non-file: " ++ path)))
        | .ok (.File file) =>
          (⟨root1.writeBack parentPath
              (parentDir.withNodes
                (syncMap.Store parentDir.nodes fileName (.File (file.Append data))))⟩,
            .ok ())

/-! ## Notions used to state the properties -/

/-- Calls `WriteFile(path, d)` for each `d` of the list in order, with nothing in
between; `none` as soon as one call does not return without error. -/
def fileSystem.writeAll (fs : fileSystem) (path : String) : List String → Option fileSystem
  | [] => some fs
  | d :: ds =>
    match fs.WriteFile path d with
    | (fs1, .ok _) => fs1.writeAll path ds
    | _ => none

/-- The directory reached from `d` through the segments of a list by exact child
name, every node on the way being a directory; `d` itself for the empty list. -/
def dir.descend (d : dir) : List String → Option dir
  | [] => some d
  | name :: rest =>
    match syncMap.Load d.nodes name with
    | some (.Dir child) => child.descend rest
    | _ => none

/-- Two observations of one node of the tree, before and after a call that
appends to no file: the same kind, for a file the same name and content, for
a directory the same name and options (its children are observed through the
paths that lead on from it). -/
def NodeOf.sameNode : Node → Node → Prop
  | .File f, .File g => f = g
  | .Dir c, .Dir e => c.name = e.name ∧ c.opt = e.opt
  | _, _ => False

mutual
/-- Key/name consistency of a tree: every node stored in a child map, at any
depth, is stored under its own name. -/
def dir.WellNamed : dir → Prop
  | .mk _ _ nodes => WellNamedNodes nodes
/-- Key/name consistency of the entries of one child map and of the trees below
them. -/
def WellNamedNodes : List (String × NodeOf dir) → Prop
  | [] => True
  | (k, .File f) :: rest => f.name = k ∧ WellNamedNodes rest
  | (k, .Dir c) :: rest => c.name = k ∧ c.WellNamed ∧ WellNamedNodes rest
end

/-- The states of a filesystem: what `NewFileSystem` returns, and what a call of
`Mkdir` or `WriteFile` leaves behind (`ReadFile` changes nothing). -/
inductive Reachable : fileSystem → Prop where
  | new (opts : List fileSystemOption) : Reachable (NewFileSystem opts)
  | mkdir (fs : fileSystem) (path : String) : Reachable fs → Reachable (fs.Mkdir path).1
  | writeFile (fs : fileSystem) (path data : String) :
      Reachable fs → Reachable (fs.WriteFile path data).1

/-- Lookup as the specification words it: `s1`, then `s2`, ..., then `sn` are
looked up by exact child name starting at `d`, every node reached before `sn`
being a directory; the node reached by `sn` is the result. -/
def dir.lookupChain (d : dir) : List String → Option Node
  | [] => none
  | [s] => syncMap.Load d.nodes s
  | s :: t :: rest =>
    match syncMap.Load d.nodes s with
    | some (.Dir child) => child.lookupChain (t :: rest)
    | _ => none

mutual
/-- Validity of the child maps of a tree as maps: in every child map, at any
depth, each key occurs once. -/
def dir.NoDupKeys : dir → Prop
  | .mk _ _ nodes => NoDupKeysNodes nodes
/-- Each key of a child map occurs once, in this map and in the maps below. -/
def NoDupKeysNodes : List (String × NodeOf dir) → Prop
  | [] => True
  | (k, .File _) :: rest => syncMap.Load rest k = none ∧ NoDupKeysNodes rest
  | (k, .Dir c) :: rest => syncMap.Load rest k = none ∧ c.NoDupKeys ∧ NoDupKeysNodes rest
end

/-- The value `PrettyPrint` assigns for a child: `Data()` of a file, the nested
`PrettyPrint()` of a directory. -/
def NodeOf.printed : Node → Value
  | .File f => .str f.Data
  | .Dir c => .obj c.PrettyPrint

/-- Two observations of one node, before and after some calls: the same kind
and the same name, and for a file the earlier content is a leading part of
the later content. -/
def NodeOf.persistsAs : Node → Node → Prop
  | .File f, .File g => f.name = g.name ∧ ∃ t, g.data = f.data ++ t
  | .Dir c, .Dir e => c.name = e.name
  | _, _ => False

/-- Nothing was removed or replaced between the trees `d` and `d1`: every
segment list that `Find` resolves in `d` resolves in `d1` to a node of the same
kind and name, a file keeping its earlier content as a leading part. -/
def dir.KeepsAll (d d1 : dir) : Prop :=
  ∀ p n, d.Find p = .ok n → ∃ n1, d1.Find p = .ok n1 ∧ n.persistsAs n1

/-- A call of one of the four methods of the interface `FileSystem`. -/
inductive Call where
  | Mkdir (path : String)
  | WriteFile (path data : String)
  | ReadFile (path : String)
  | PrettyPrint

/-- The filesystem after one call (`ReadFile` and `PrettyPrint` mutate nothing). -/
def fileSystem.call (fs : fileSystem) : Call → fileSystem
  | .Mkdir path => (fs.Mkdir path).1
  | .WriteFile path data => (fs.WriteFile path data).1
  | .ReadFile _ => fs
  | .PrettyPrint => fs

/-- The filesystem after a finite sequence of calls. -/
def fileSystem.calls (fs : fileSystem) (cs : List Call) : fileSystem :=
  cs.foldl fileSystem.call fs

/-- The states that sequential calls of the `FileSystem`, `Dir` and `File`
operations can build from `NewFileSystem`.  A `Dir` or `File` method is called
on a node of the tree: the directory `D` reached from the root along `loc`
(the root itself for the empty list), or a file child of it; the mutated
directory is written back at `loc`.  The methods that mutate nothing (`Find`,
`GetChild`, `HasChild`, `Name`, `Data`, `PrettyPrint`, `ReadFile`) add no
state. -/
inductive Constructible : fileSystem → Prop where
  | new (opts : List fileSystemOption) : Constructible (NewFileSystem opts)
  | mkdir (fs : fileSystem) (path : String) :
      Constructible fs → Constructible (fs.Mkdir path).1
  | writeFile (fs : fileSystem) (path data : String) :
      Constructible fs → Constructible (fs.WriteFile path data).1
  | createDir (fs : fileSystem) (loc : List String) (D : filesystem.dir) (name : String) :
      Constructible fs → fs.dir.descend loc = some D →
      Constructible ⟨fs.dir.writeBack loc (D.CreateDir name).1⟩
  | createFile (fs : fileSystem) (loc : List String) (D : filesystem.dir) (name data : String) :
      Constructible fs → fs.dir.descend loc = some D →
      Constructible ⟨fs.dir.writeBack loc (D.CreateFile name data).1⟩
  | createPath (fs : fileSystem) (loc : List String) (D : filesystem.dir) (path : List String) :
      Constructible fs → fs.dir.descend loc = some D →
      Constructible ⟨fs.dir.writeBack loc (D.CreatePath path).1⟩
  | append (fs : fileSystem) (loc : List String) (D : filesystem.dir) (name : String)
      (f : file) (data : String) :
      Constructible fs → fs.dir.descend loc = some D →
      syncMap.Load D.nodes name = some (.File f) →
      Constructible
        ⟨fs.dir.writeBack loc (D.withNodes (syncMap.Store D.nodes name (.File (f.Append data))))⟩

/-- A property of trees that the child-map operations keep: it holds of an
empty directory, passes to child directories, and survives storing a child
under a fresh name or in place of a child of the same name, when the stored
child carries the right name and (if a directory) has the property. -/
structure TreeInvariant (Inv : dir → Prop) : Prop where
  empty : ∀ o n, Inv (dir.mk o n [])
  child : ∀ (d c : dir) (k : String), Inv d → syncMap.Load d.nodes k = some (.Dir c) → Inv c
  storeNew : ∀ (d : dir) (k : String) (v : Node), Inv d → syncMap.Load d.nodes k = none →
    v.Name = k → (∀ c, v = .Dir c → Inv c) → Inv (d.withNodes (syncMap.Store d.nodes k v))
  storeSame : ∀ (d : dir) (k : String) (v0 v : Node), Inv d →
    syncMap.Load d.nodes k = some v0 → v.Name = v0.Name → (∀ c, v = .Dir c → Inv c) →
    Inv (d.withNodes (syncMap.Store d.nodes k v))

/-! ## Lemmas -/

/-! ### The child map, and one step of `Find` and `CreatePath` -/

@[simp] theorem dir.withNodes_nodes (d : dir) (ns : syncMap) : (d.withNodes ns).nodes = ns := rfl
@[simp] theorem dir.withNodes_opt (d : dir) (ns : syncMap) : (d.withNodes ns).opt = d.opt := rfl
@[simp] theorem dir.withNodes_name (d : dir) (ns : syncMap) : (d.withNodes ns).name = d.name := rfl
@[simp] theorem dir.withNodes_self (d : dir) : d.withNodes d.nodes = d := by
  cases d; rfl
@[simp] theorem dir.withNodes_withNodes (d : dir) (ns ms : syncMap) :
    (d.withNodes ns).withNodes ms = d.withNodes ms := rfl

theorem syncMap.Load_Store_same (m : syncMap) (k : String) (v : Node) :
    syncMap.Load (syncMap.Store m k v) k = some v := by
  induction m with
  | nil => simp [syncMap.Store, syncMap.Load]
  | cons hd tl ih =>
    obtain ⟨k', v'⟩ := hd
    by_cases h : k' = k
    · simp [syncMap.Store, syncMap.Load, h]
    · simp [syncMap.Store, syncMap.Load, h, ih]

theorem syncMap.Load_Store_other (m : syncMap) (k k' : String) (v : Node) (hne : k ≠ k') :
    syncMap.Load (syncMap.Store m k v) k' = syncMap.Load m k' := by
  induction m with
  | nil => simp [syncMap.Store, syncMap.Load, hne]
  | cons hd tl ih =>
    obtain ⟨k0, v0⟩ := hd
    by_cases h : k0 = k
    · subst h
      simp [syncMap.Store, syncMap.Load, hne]
    · by_cases h' : k0 = k'
      · subst h'
        simp [syncMap.Store, syncMap.Load, h]
      · simp [syncMap.Store, syncMap.Load, h, h', ih]

theorem syncMap.Store_of_Load (m : syncMap) (k : String) (v : Node)
    (h : syncMap.Load m k = some v) : syncMap.Store m k v = m := by
  induction m with
  | nil => simp [syncMap.Load] at h
  | cons hd tl ih =>
    obtain ⟨k0, v0⟩ := hd
    by_cases hk : k0 = k
    · subst hk
      simp [syncMap.Load] at h
      simp [syncMap.Store, h]
    · simp [syncMap.Load, hk] at h
      simp [syncMap.Store, hk, ih h]

theorem syncMap.Store_Store (m : syncMap) (k : String) (v w : Node) :
    syncMap.Store (syncMap.Store m k v) k w = syncMap.Store m k w := by
  induction m with
  | nil => simp [syncMap.Store]
  | cons hd tl ih =>
    obtain ⟨k0, v0⟩ := hd
    by_cases hk : k0 = k
    · simp [syncMap.Store, hk]
    · simp [syncMap.Store, hk, ih]

theorem dir.Find_nil (d : dir) : d.Find [] = .panic := rfl

theorem dir.Find_none (d : dir) (name : String) (rest : List String)
    (h : syncMap.Load d.nodes name = none) :
    d.Find (name :: rest) = .err (.pathNotFoundError (name :: rest)) := by
  simp [dir.Find, dir.GetChild, h, NewPathNotFoundError]

theorem dir.Find_single (d : dir) (name : String) (child : Node)
    (h : syncMap.Load d.nodes name = some child) :
    d.Find [name] = .ok child := by
  simp [dir.Find, dir.GetChild, h]

theorem dir.Find_file (d : dir) (name : String) (rest : List String) (f : file)
    (h : syncMap.Load d.nodes name = some (.File f)) (hr : rest ≠ []) :
    d.Find (name :: rest)
      = .err (.errorString ("path is invalid: " ++ fmt.sliceString (name :: rest))) := by
  simp [dir.Find, dir.GetChild, h, hr]

theorem dir.Find_dir (d : dir) (name : String) (rest : List String) (c : dir)
    (h : syncMap.Load d.nodes name = some (.Dir c)) (hr : rest ≠ []) :
    d.Find (name :: rest) = c.Find rest := by
  simp [dir.Find, dir.GetChild, h, hr]

theorem dir.CreatePath_nil (d : dir) : d.CreatePath [] = (d, .panic) := rfl

theorem dir.CreatePath_file (d : dir) (name : String) (rest : List String) (f : file)
    (h : syncMap.Load d.nodes name = some (.File f)) :
    d.CreatePath (name :: rest)
      = (d, .err (.errorString ("path is invalid: " ++ fmt.sliceString (name :: rest)))) := by
  simp [dir.CreatePath, dir.getOrCreate, dir.GetChild, h]

theorem dir.CreatePath_dir_single (d : dir) (name : String) (c : dir)
    (h : syncMap.Load d.nodes name = some (.Dir c)) :
    d.CreatePath [name] = (d, .ok c) := by
  simp [dir.CreatePath, dir.getOrCreate, dir.GetChild, h]

theorem dir.CreatePath_dir (d : dir) (name : String) (rest : List String) (c : dir)
    (h : syncMap.Load d.nodes name = some (.Dir c)) (hr : rest ≠ []) :
    d.CreatePath (name :: rest)
      = (d.withNodes (syncMap.Store d.nodes name (.Dir (c.CreatePath rest).1)),
          (c.CreatePath rest).2) := by
  simp [dir.CreatePath, dir.getOrCreate, dir.GetChild, h, hr]

theorem dir.CreatePath_none_single (d : dir) (name : String)
    (h : syncMap.Load d.nodes name = none) :
    d.CreatePath [name]
      = (d.withNodes (syncMap.Store d.nodes name (.Dir (dir.mk d.opt name []))),
          .ok (dir.mk d.opt name [])) := by
  simp [dir.CreatePath, dir.getOrCreate, dir.GetChild, dir.CreateDir, dir.HasChild, h,
    NewPathNotFoundError, errors.Is, pathNotFoundError.Is, PathNotFoundError]

theorem dir.CreatePath_none (d : dir) (name : String) (rest : List String)
    (h : syncMap.Load d.nodes name = none) (hr : rest ≠ []) :
    d.CreatePath (name :: rest)
      = (d.withNodes (syncMap.Store d.nodes name
            (.Dir ((dir.mk d.opt name []).CreatePath rest).1)),
          ((dir.mk d.opt name []).CreatePath rest).2) := by
  simp [dir.CreatePath, dir.getOrCreate, dir.GetChild, dir.CreateDir, dir.HasChild, h,
    NewPathNotFoundError, errors.Is, pathNotFoundError.Is, PathNotFoundError, hr,
    syncMap.Store_Store]

/-! ### How `Find`, `CreatePath` and the write-back relate -/

theorem dir.Find_cons_ok_dir (d : dir) (name : String) (rest : List String) (n : Node)
    (hr : rest ≠ []) (h : d.Find (name :: rest) = .ok n) :
    ∃ c, syncMap.Load d.nodes name = some (.Dir c) ∧ c.Find rest = .ok n := by
  cases hl : syncMap.Load d.nodes name with
  | none => rw [dir.Find_none d name rest hl] at h; cases h
  | some child =>
    cases child with
    | File f => rw [dir.Find_file d name rest f hl hr] at h; cases h
    | Dir c => exact ⟨c, rfl, by rw [dir.Find_dir d name rest c hl hr] at h; exact h⟩

theorem dir.Find_single_ok (d : dir) (name : String) (n : Node)
    (h : d.Find [name] = .ok n) : syncMap.Load d.nodes name = some n := by
  cases hl : syncMap.Load d.nodes name with
  | none => rw [dir.Find_none d name [] hl] at h; cases h
  | some child => rw [dir.Find_single d name child hl] at h; cases h; rfl

theorem dir.Find_single_store (d : dir) (ns : syncMap) (name : String) (v : Node) :
    (d.withNodes (syncMap.Store ns name v)).Find [name] = .ok v :=
  dir.Find_single _ _ _ (by simpa using syncMap.Load_Store_same ns name v)

theorem dir.Find_dir_store (d : dir) (ns : syncMap) (name : String) (rest : List String)
    (c : dir) (hr : rest ≠ []) :
    (d.withNodes (syncMap.Store ns name (.Dir c))).Find (name :: rest) = c.Find rest :=
  dir.Find_dir _ name rest c (by simpa using syncMap.Load_Store_same ns name (.Dir c)) hr

theorem dir.Find_writeBack (p : List String) : ∀ (d D D' : dir), p ≠ [] →
    d.Find p = .ok (.Dir D) → (d.writeBack p D').Find p = .ok (.Dir D') := by
  induction p with
  | nil => intro d D D' h; exact absurd rfl h
  | cons name rest ih =>
    intro d D D' _ hf
    by_cases hr : rest = []
    · subst hr
      have hl := dir.Find_single_ok d name _ hf
      simp only [dir.writeBack, hl]
      exact dir.Find_single_store _ _ _ _
    · obtain ⟨c, hl, hc⟩ := dir.Find_cons_ok_dir d name rest _ hr hf
      simp only [dir.writeBack, hl]
      rw [dir.Find_dir_store _ _ name rest _ hr]
      exact ih c D D' hr hc

theorem dir.Find_append (p : List String) : ∀ (d D : dir) (q : List String), p ≠ [] →
    d.Find p = .ok (.Dir D) → q ≠ [] → d.Find (p ++ q) = D.Find q := by
  induction p with
  | nil => intro d D q h; exact absurd rfl h
  | cons name rest ih =>
    intro d D q _ hf hq
    by_cases hr : rest = []
    · subst hr
      have hl := dir.Find_single_ok d name _ hf
      simpa using dir.Find_dir d name q D hl hq
    · obtain ⟨c, hl, hc⟩ := dir.Find_cons_ok_dir d name rest _ hr hf
      have : rest ++ q ≠ [] := by simp [hr]
      rw [List.cons_append, dir.Find_dir d name (rest ++ q) c hl this]
      exact ih c D q hr hc hq

theorem dir.CreatePath_of_Find (p : List String) : ∀ (d D : dir),
    d.Find p = .ok (.Dir D) → d.CreatePath p = (d, .ok D) := by
  induction p with
  | nil => intro d D h; cases h
  | cons name rest ih =>
    intro d D hf
    by_cases hr : rest = []
    · subst hr
      exact dir.CreatePath_dir_single d name D (dir.Find_single_ok d name _ hf)
    · obtain ⟨c, hl, hc⟩ := dir.Find_cons_ok_dir d name rest _ hr hf
      rw [dir.CreatePath_dir d name rest c hl hr, ih c D hc]
      simp [syncMap.Store_of_Load _ _ _ hl]

theorem dir.Find_CreatePath (p : List String) : ∀ (d d' D : dir),
    d.CreatePath p = (d', .ok D) → d'.Find p = .ok (.Dir D) := by
  induction p with
  | nil => intro d d' D h; cases h
  | cons name rest ih =>
    intro d d' D h
    cases hl : syncMap.Load d.nodes name with
    | none =>
      by_cases hr : rest = []
      · subst hr
        rw [dir.CreatePath_none_single d name hl] at h
        cases h
        exact dir.Find_single_store _ _ _ _
      · rw [dir.CreatePath_none d name rest hl hr] at h
        cases hc : (dir.mk d.opt name []).CreatePath rest with
        | mk c' r =>
          rw [hc] at h
          cases h
          rw [dir.Find_dir_store _ _ name rest _ hr]
          exact ih _ _ _ hc
    | some child =>
      cases child with
      | File f => rw [dir.CreatePath_file d name rest f hl] at h; cases h
      | Dir c =>
        by_cases hr : rest = []
        · subst hr
          rw [dir.CreatePath_dir_single d name c hl] at h
          cases h
          exact dir.Find_single _ _ _ hl
        · rw [dir.CreatePath_dir d name rest c hl hr] at h
          cases hc : c.CreatePath rest with
          | mk c' r =>
            rw [hc] at h
            cases h
            rw [dir.Find_dir_store _ _ name rest _ hr]
            exact ih _ _ _ hc

theorem dir.Find_empty (opt : fileSystemOptions) (nm : String) (p : List String) (n : Node) :
    (dir.mk opt nm []).Find p ≠ .ok n := by
  cases p with
  | nil => simp [dir.Find]
  | cons a as => rw [dir.Find_none (dir.mk opt nm []) a as rfl]; simp

theorem dir.CreatePath_ok_cases (p : List String) : ∀ (d d' D : dir),
    d.CreatePath p = (d', .ok D) → (d' = d ∧ d.Find p = .ok (.Dir D)) ∨ D.nodes = [] := by
  induction p with
  | nil => intro d d' D h; cases h
  | cons name rest ih =>
    intro d d' D h
    cases hl : syncMap.Load d.nodes name with
    | none =>
      right
      by_cases hr : rest = []
      · subst hr
        rw [dir.CreatePath_none_single d name hl] at h
        cases h
        rfl
      · rw [dir.CreatePath_none d name rest hl hr] at h
        cases hc : (dir.mk d.opt name []).CreatePath rest with
        | mk c' r =>
          rw [hc] at h
          cases h
          rcases ih _ _ _ hc with ⟨_, hf⟩ | hn
          · exact absurd hf (dir.Find_empty _ _ _ _)
          · exact hn
    | some child =>
      cases child with
      | File f => rw [dir.CreatePath_file d name rest f hl] at h; cases h
      | Dir c =>
        by_cases hr : rest = []
        · subst hr
          rw [dir.CreatePath_dir_single d name c hl] at h
          cases h
          exact Or.inl ⟨rfl, dir.Find_single _ _ _ hl⟩
        · rw [dir.CreatePath_dir d name rest c hl hr] at h
          cases hc : c.CreatePath rest with
          | mk c' r =>
            rw [hc] at h
            cases h
            rcases ih _ _ _ hc with ⟨he, hf⟩ | hn
            · left
              subst he
              refine ⟨by simp [syncMap.Store_of_Load _ _ _ hl], ?_⟩
              rw [dir.Find_dir d name rest _ hl hr]
              exact hf
            · exact Or.inr hn

/-! ### Path segments, and `WriteFile` case by case -/

theorem splitChars_ne_nil (sep : Char) (cs : List Char) : splitChars sep cs ≠ [] := by
  induction cs with
  | nil => simp [splitChars]
  | cons c cs ih =>
    unfold splitChars
    split
    · simp
    · split <;> simp

theorem strings.Split_ne_nil (s : String) (sep : Char) : strings.Split s sep ≠ [] := by
  simp [strings.Split, splitChars_ne_nil]

theorem list_take_last (l : List String) (h : l ≠ []) :
    ∃ pp f, l = pp ++ [f] ∧ l.take (l.length - 1) = pp ∧ l[l.length - 1]? = some f := by
  refine ⟨l.dropLast, l.getLast h, (List.dropLast_append_getLast h).symm,
    (List.dropLast_eq_take l).symm, ?_⟩
  rw [← List.getLast?_eq_getElem?, List.getLast?_eq_getLast l h]

theorem segments_shape (path : String) :
    ∃ pp f, strings.Split path '/' = pp ++ [f]
      ∧ (strings.Split path '/').take ((strings.Split path '/').length - 1) = pp
      ∧ (strings.Split path '/')[(strings.Split path '/').length - 1]? = some f :=
  list_take_last _ (strings.Split_ne_nil path '/')

theorem dir.CreatePath_opt_name (d : dir) (p : List String) :
    (d.CreatePath p).1.opt = d.opt ∧ (d.CreatePath p).1.name = d.name := by
  cases p with
  | nil => exact ⟨rfl, rfl⟩
  | cons name rest =>
    cases hl : syncMap.Load d.nodes name with
    | none =>
      by_cases hr : rest = []
      · subst hr; rw [dir.CreatePath_none_single d name hl]; exact ⟨rfl, rfl⟩
      · rw [dir.CreatePath_none d name rest hl hr]; exact ⟨rfl, rfl⟩
    | some child =>
      cases child with
      | File f => rw [dir.CreatePath_file d name rest f hl]; exact ⟨rfl, rfl⟩
      | Dir c =>
        by_cases hr : rest = []
        · subst hr; rw [dir.CreatePath_dir_single d name c hl]; exact ⟨rfl, rfl⟩
        · rw [dir.CreatePath_dir d name rest c hl hr]; exact ⟨rfl, rfl⟩

theorem resolveParent_ok (fs : fileSystem) (pp : List String) (root1 : dir)
    (n : Node) (h : fs.resolveParent pp = (root1, .ok n)) :
    pp ≠ [] ∧ root1.Find pp = .ok n ∧ root1.opt = fs.dir.opt ∧
      ((root1 = fs.dir ∧ fs.dir.Find pp = .ok n) ∨ ∃ D, n = .Dir D ∧ D.nodes = []) := by
  unfold fileSystem.resolveParent at h
  by_cases hp : pp = []
  · subst hp
    cases hflag : fs.dir.opt.pFlagDisabled <;> simp [hflag, dir.CreatePath, dir.Find] at h
  refine ⟨hp, ?_⟩
  cases hflag : fs.dir.opt.pFlagDisabled with
  | true =>
    simp only [hflag, Bool.not_true] at h
    simp at h
    obtain ⟨h1, h2⟩ := h
    subst h1
    exact ⟨h2, rfl, Or.inl ⟨rfl, h2⟩⟩
  | false =>
    simp only [hflag, Bool.not_false] at h
    cases hc : fs.dir.CreatePath pp with
    | mk r1 r =>
      have hopt := (dir.CreatePath_opt_name fs.dir pp).1
      rw [hc] at h hopt
      cases r with
      | panic => simp at h
      | err e => simp at h
      | ok D =>
        simp at h
        obtain ⟨h1, h2⟩ := h
        subst h1 h2
        refine ⟨dir.Find_CreatePath pp _ _ _ hc, hopt, ?_⟩
        rcases dir.CreatePath_ok_cases pp _ _ _ hc with ⟨he, hf⟩ | hn
        · exact Or.inl ⟨he, hf⟩
        · exact Or.inr ⟨D, rfl, hn⟩

theorem resolveParent_of_Find (fs : fileSystem) (pp : List String) (D : dir)
    (h : fs.dir.Find pp = .ok (.Dir D)) : fs.resolveParent pp = (fs.dir, .ok (.Dir D)) := by
  unfold fileSystem.resolveParent
  cases hflag : fs.dir.opt.pFlagDisabled with
  | true => simp [h]
  | false => simp [dir.CreatePath_of_Find pp _ _ h]

theorem WriteFile_unfold (fs : fileSystem) (path data : String) (pp : List String)
    (f : String) (hs : strings.Split path '/' = pp ++ [f]) :
    fs.WriteFile path data =
      match fs.resolveParent pp with
      | (root1, .panic) => (⟨root1⟩, .panic)
      | (root1, .err err) => (⟨root1⟩, .err err)
      | (root1, .ok (.File _)) => (⟨root1⟩, .err (.errorString ("path is invalid: " ++ path)))
      | (root1, .ok (.Dir parentDir)) =>
        match syncMap.Load parentDir.nodes f with
        | none =>
          (⟨root1.writeBack pp
              (parentDir.withNodes (syncMap.Store parentDir.nodes f (.File ⟨data, f⟩)))⟩, .ok ())
        | some (.Dir _) =>
          (⟨root1⟩, .err (.errorString ("error writing to non-file: " ++ path)))
        | some (.File file) =>
          (⟨root1.writeBack pp
              (parentDir.withNodes
                (syncMap.Store parentDir.nodes f (.File (file.Append data))))⟩, .ok ()) := by
  unfold fileSystem.WriteFile fileSystem.parsePathSegments
  simp only [hs, List.length_append, List.length_singleton, Nat.add_sub_cancel,
    List.take_left']
  have hget : (pp ++ [f])[pp.length]? = some f := by simp
  rcases hrp : fs.resolveParent pp with ⟨root1, r⟩
  cases r with
  | panic => rfl
  | err e => rfl
  | ok n =>
    cases n with
    | File fl => rfl
    | Dir parentDir =>
      rcases hl : syncMap.Load parentDir.nodes f with _ | child
      · simp [hget, dir.GetChild, dir.CreateFile, dir.HasChild, hl]
      · cases child <;> simp [hget, dir.GetChild, dir.CreateFile, dir.HasChild, hl]

/-! ### A file written to again and again -/

theorem WriteFile_first (fs fs' : fileSystem) (path x : String) (pp : List String)
    (f : String) (hs : strings.Split path '/' = pp ++ [f])
    (hnew : ∀ n, fs.dir.Find (pp ++ [f]) ≠ .ok n)
    (hw : fs.WriteFile path x = (fs', .ok ())) :
    pp ≠ [] ∧ ∃ D, fs'.dir.Find pp = .ok (.Dir D)
      ∧ syncMap.Load D.nodes f = some (.File ⟨x, f⟩) := by
  rw [WriteFile_unfold fs path x pp f hs] at hw
  rcases hrp : fs.resolveParent pp with ⟨root1, r⟩
  rw [hrp] at hw
  cases r with
  | panic => simp at hw
  | err e => simp at hw
  | ok n =>
    obtain ⟨hp, hfind, _, hcases⟩ := resolveParent_ok fs pp root1 n hrp
    refine ⟨hp, ?_⟩
    cases n with
    | File fl => simp at hw
    | Dir D =>
      have hnone : syncMap.Load D.nodes f = none := by
        rcases hcases with ⟨_, hf⟩ | ⟨D0, hD0, hn⟩
        · cases hl : syncMap.Load D.nodes f with
          | none => rfl
          | some child =>
            exfalso
            apply hnew child
            rw [dir.Find_append pp fs.dir D [f] hp hf (by simp)]
            exact dir.Find_single D f child hl
        · cases hD0
          rw [hn]; rfl
      simp only [hnone] at hw
      simp only [Prod.mk.injEq, and_true] at hw
      subst hw
      refine ⟨_, dir.Find_writeBack pp root1 D _ hp hfind, ?_⟩
      simpa using syncMap.Load_Store_same D.nodes f _

theorem WriteFile_next (fs : fileSystem) (path x : String) (pp : List String)
    (f : String) (hs : strings.Split path '/' = pp ++ [f]) (D : dir) (fl : file)
    (hp : pp ≠ []) (hf : fs.dir.Find pp = .ok (.Dir D))
    (hl : syncMap.Load D.nodes f = some (.File fl)) :
    ∃ fs' D', fs.WriteFile path x = (fs', .ok ()) ∧ fs'.dir.Find pp = .ok (.Dir D')
      ∧ syncMap.Load D'.nodes f = some (.File (fl.Append x)) := by
  rw [WriteFile_unfold fs path x pp f hs, resolveParent_of_Find fs pp D hf]
  simp only [hl]
  refine ⟨_, _, rfl, dir.Find_writeBack pp fs.dir D _ hp hf, ?_⟩
  simpa using syncMap.Load_Store_same D.nodes f _

theorem ReadFile_of_Find (fs : fileSystem) (path : String) (pp : List String)
    (f : String) (hs : strings.Split path '/' = pp ++ [f]) (D : dir) (fl : file)
    (hp : pp ≠ []) (hf : fs.dir.Find pp = .ok (.Dir D))
    (hl : syncMap.Load D.nodes f = some (.File fl)) :
    fs.ReadFile path = .ok fl.data := by
  unfold fileSystem.ReadFile
  simp only [hs]
  rw [dir.Find_append pp fs.dir D [f] hp hf (by simp), dir.Find_single D f _ hl]
  rfl

theorem string_join_cons (d : String) (ds : List String) :
    String.join (d :: ds) = d ++ String.join ds := by
  have key : ∀ (l : List String) (a : String),
      List.foldl (fun r s => r ++ s) a l = a ++ List.foldl (fun r s => r ++ s) "" l := by
    intro l
    induction l with
    | nil => intro a; simp
    | cons y ys ih =>
      intro a
      simp only [List.foldl_cons]
      rw [ih (a ++ y), ih ("" ++ y)]
      simp [String.append_assoc]
  unfold String.join
  simp only [List.foldl_cons]
  rw [key ds ("" ++ d)]
  simp

theorem writeAll_next (path : String) (pp : List String) (f : String)
    (hs : strings.Split path '/' = pp ++ [f]) (hp : pp ≠ []) :
    ∀ (ds : List String) (fs fs' : fileSystem) (D : dir) (fl : file),
      fs.dir.Find pp = .ok (.Dir D) → syncMap.Load D.nodes f = some (.File fl) →
      fs.writeAll path ds = some fs' →
      fs'.ReadFile path = .ok (fl.data ++ String.join ds) := by
  intro ds
  induction ds with
  | nil =>
    intro fs fs' D fl hf hl hw
    simp only [fileSystem.writeAll, Option.some.injEq] at hw
    subst hw
    rw [ReadFile_of_Find fs path pp f hs D fl hp hf hl]
    simp [String.join]
  | cons d ds ih =>
    intro fs fs' D fl hf hl hw
    obtain ⟨fs1, D1, hw1, hf1, hl1⟩ := WriteFile_next fs path d pp f hs D fl hp hf hl
    simp only [fileSystem.writeAll, hw1] at hw
    rw [ih fs1 fs' D1 _ hf1 hl1 hw, string_join_cons]
    simp [file.Append, String.append_assoc]

/-! ### Restrictive `Mkdir` and absent segments -/

theorem dir.HasChild_false_iff (d : dir) (name : String) :
    d.HasChild name = false ↔ syncMap.Load d.nodes name = none := by
  unfold dir.HasChild
  cases syncMap.Load d.nodes name <;> simp

theorem dir.Find_absent (pre : List String) : ∀ (d D : dir) (s : String) (suf : List String),
    d.descend pre = some D → D.HasChild s = false →
    d.Find (pre ++ s :: suf) = .err (.pathNotFoundError (s :: suf)) := by
  induction pre with
  | nil =>
    intro d D s suf hd hs
    simp only [dir.descend, Option.some.injEq] at hd
    subst hd
    exact dir.Find_none d s suf ((dir.HasChild_false_iff d s).1 hs)
  | cons a pre ih =>
    intro d D s suf hd hs
    simp only [dir.descend] at hd
    cases hl : syncMap.Load d.nodes a with
    | none => rw [hl] at hd; cases hd
    | some child =>
      rw [hl] at hd
      cases child with
      | File f => cases hd
      | Dir c =>
        rw [List.cons_append, dir.Find_dir d a (pre ++ s :: suf) c hl (by simp)]
        exact ih c D s suf hd hs

theorem Mkdir_unfold_restrictive (fs : fileSystem) (path : String) (pp : List String)
    (f : String) (hs : strings.Split path '/' = pp ++ [f])
    (hflag : fs.dir.opt.pFlagDisabled = true) :
    fs.Mkdir path =
      match fs.dir.Find pp with
      | .panic => (fs, .panic)
      | .err err => (fs, .err err)
      | .ok (.File _) => (fs, .err (.errorString ("path is invalid: " ++ path)))
      | .ok (.Dir parentDir) =>
        match parentDir.CreateDir f with
        | (parentDir1, .ok _) => (⟨fs.dir.writeBack pp parentDir1⟩, .ok ())
        | (parentDir1, .panic) => (⟨fs.dir.writeBack pp parentDir1⟩, .panic)
        | (parentDir1, .err err) =>
          (⟨fs.dir.writeBack pp parentDir1⟩,
            .err (.wrapError ("error adding child dir " ++ path ++ ": " ++ err.Error) err)) := by
  unfold fileSystem.Mkdir fileSystem.parsePathSegments
  have hget : (pp ++ [f])[pp.length]? = some f := by simp
  simp only [hs, List.length_append, List.length_singleton, Nat.add_sub_cancel,
    List.take_left', hflag, hget]
  rfl

theorem Mkdir_unfold_permissive (fs : fileSystem) (path : String)
    (hflag : fs.dir.opt.pFlagDisabled = false) :
    fs.Mkdir path =
      match fs.dir.CreatePath (strings.Split path '/') with
      | (root1, .ok _) => (⟨root1⟩, .ok ())
      | (root1, .err err) => (⟨root1⟩, .err err)
      | (root1, .panic) => (⟨root1⟩, .panic) := by
  unfold fileSystem.Mkdir fileSystem.parsePathSegments
  simp only [hflag]
  rfl

/-! ### What `CreatePath` creates and what it keeps -/

theorem NodeOf.sameNode_refl (n : Node) : n.sameNode n := by
  cases n with
  | File f => simp [NodeOf.sameNode]
  | Dir c => simp [NodeOf.sameNode]

theorem WellNamedNodes_load (ns : syncMap) (k : String) (v : Node)
    (hwn : WellNamedNodes ns) (hl : syncMap.Load ns k = some v) :
    v.Name = k ∧ ∀ c, v = .Dir c → c.WellNamed := by
  induction ns with
  | nil => simp [syncMap.Load] at hl
  | cons hd tl ih =>
    obtain ⟨k0, v0⟩ := hd
    by_cases hk : k0 = k
    · subst hk
      simp only [syncMap.Load, if_true, Option.some.injEq] at hl
      subst hl
      cases v0 with
      | File f =>
        simp only [WellNamedNodes] at hwn
        exact ⟨hwn.1, fun c hc => by cases hc⟩
      | Dir c0 =>
        simp only [WellNamedNodes] at hwn
        exact ⟨hwn.1, fun c hc => by cases hc; exact hwn.2.1⟩
    · simp only [syncMap.Load, hk, if_false] at hl
      cases v0 with
      | File f =>
        simp only [WellNamedNodes] at hwn
        exact ih hwn.2 hl
      | Dir c0 =>
        simp only [WellNamedNodes] at hwn
        exact ih hwn.2.2 hl

theorem dir.WellNamed_child (d c : dir) (k : String) (hwn : d.WellNamed)
    (hl : syncMap.Load d.nodes k = some (.Dir c)) : c.name = k ∧ c.WellNamed := by
  cases d with
  | mk o n ns =>
    simp only [dir.WellNamed] at hwn
    have := WellNamedNodes_load ns k _ hwn hl
    exact ⟨this.1, this.2 c rfl⟩

theorem dir.Find_congr (d e : dir) (k : String) (rest : List String)
    (h : syncMap.Load d.nodes k = syncMap.Load e.nodes k) :
    d.Find (k :: rest) = e.Find (k :: rest) := by
  simp [dir.Find, dir.GetChild, h]

theorem dir.Find_cons_ok_load (d : dir) (k : String) (rest : List String) (n : Node)
    (h : d.Find (k :: rest) = .ok n) : ∃ v, syncMap.Load d.nodes k = some v := by
  cases hl : syncMap.Load d.nodes k with
  | none => rw [dir.Find_none d k rest hl] at h; cases h
  | some v => exact ⟨v, rfl⟩

theorem dir.Find_store_other (d : dir) (name k : String) (v : Node) (rest : List String)
    (hne : name ≠ k) :
    (d.withNodes (syncMap.Store d.nodes name v)).Find (k :: rest) = d.Find (k :: rest) :=
  dir.Find_congr _ _ _ _ (by simpa using syncMap.Load_Store_other d.nodes name k v hne)

theorem dir.CreatePath_preserves_Find (p : List String) : ∀ (d : dir) (q : List String)
    (n : Node), d.Find q = .ok n → ∃ n1, (d.CreatePath p).1.Find q = .ok n1 ∧ n.sameNode n1 := by
  induction p with
  | nil => intro d q n h; exact ⟨n, h, NodeOf.sameNode_refl n⟩
  | cons name rest ih =>
    intro d q n h
    cases q with
    | nil => cases h
    | cons k qrest =>
      cases hl : syncMap.Load d.nodes name with
      | none =>
        have hne : name ≠ k := by
          intro he
          subst he
          obtain ⟨v, hv⟩ := dir.Find_cons_ok_load d name qrest n h
          rw [hl] at hv; cases hv
        by_cases hr : rest = []
        · subst hr
          rw [dir.CreatePath_none_single d name hl]
          exact ⟨n, by rw [dir.Find_store_other d name k _ qrest hne]; exact h,
            NodeOf.sameNode_refl n⟩
        · rw [dir.CreatePath_none d name rest hl hr]
          exact ⟨n, by rw [dir.Find_store_other d name k _ qrest hne]; exact h,
            NodeOf.sameNode_refl n⟩
      | some child =>
        cases child with
        | File f =>
          rw [dir.CreatePath_file d name rest f hl]
          exact ⟨n, h, NodeOf.sameNode_refl n⟩
        | Dir c =>
          by_cases hr : rest = []
          · subst hr
            rw [dir.CreatePath_dir_single d name c hl]
            exact ⟨n, h, NodeOf.sameNode_refl n⟩
          · rw [dir.CreatePath_dir d name rest c hl hr]
            by_cases hk : name = k
            · subst hk
              by_cases hq : qrest = []
              · subst hq
                rw [dir.Find_single d name _ hl] at h
                cases h
                refine ⟨_, dir.Find_single_store _ _ _ _, ?_⟩
                have := dir.CreatePath_opt_name c rest
                simp [NodeOf.sameNode, this.1, this.2]
              · rw [dir.Find_dir d name qrest c hl hq] at h
                obtain ⟨n1, h1, h2⟩ := ih c qrest n h
                exact ⟨n1, by rw [dir.Find_dir_store _ _ name qrest _ hq]; exact h1, h2⟩
            · exact ⟨n, by rw [dir.Find_store_other d name k _ qrest hk]; exact h,
                NodeOf.sameNode_refl n⟩

theorem dir.CreatePath_succeeds (p : List String) : ∀ (d : dir), p ≠ [] →
    (∀ i f, d.Find (p.take i) ≠ .ok (.File f)) → ∃ d1 r, d.CreatePath p = (d1, .ok r) := by
  induction p with
  | nil => intro d h; exact absurd rfl h
  | cons name rest ih =>
    intro d _ hno
    cases hl : syncMap.Load d.nodes name with
    | none =>
      by_cases hr : rest = []
      · subst hr
        exact ⟨_, _, dir.CreatePath_none_single d name hl⟩
      · rw [dir.CreatePath_none d name rest hl hr]
        obtain ⟨c1, r, hc⟩ := ih (dir.mk d.opt name []) hr (fun i f => dir.Find_empty _ _ _ _)
        exact ⟨_, r, by rw [hc]⟩
    | some child =>
      cases child with
      | File f =>
        exfalso
        exact hno 1 f (by simpa using dir.Find_single d name _ hl)
      | Dir c =>
        by_cases hr : rest = []
        · subst hr
          exact ⟨_, _, dir.CreatePath_dir_single d name c hl⟩
        · rw [dir.CreatePath_dir d name rest c hl hr]
          have hno1 : ∀ i f, c.Find (rest.take i) ≠ .ok (.File f) := by
            intro i f
            cases i with
            | zero => simp [dir.Find]
            | succ j =>
              have hne : rest.take (j + 1) ≠ [] := by
                cases rest with
                | nil => exact absurd rfl hr
                | cons x xs => simp
              have := hno (j + 2) f
              rw [List.take_succ_cons, dir.Find_dir d name _ c hl hne] at this
              exact this
          obtain ⟨c1, r, hc⟩ := ih c hr hno1
          exact ⟨_, r, by rw [hc]⟩

theorem dir.CreatePath_chain (p : List String) : ∀ (d d1 r : dir), d.WellNamed →
    d.CreatePath p = (d1, .ok r) →
    ∀ i, i < p.length → ∃ D, d1.Find (p.take (i + 1)) = .ok (.Dir D) ∧ p[i]? = some D.Name := by
  induction p with
  | nil => intro d d1 r _ h; cases h
  | cons name rest ih =>
    intro d d1 r hwn h i hi
    -- the child stored under `name` afterwards, and what is known of it
    have key : ∃ c c1 : dir, c.WellNamed ∧ c.name = name ∧ c1.name = name ∧
        d1.Find [name] = .ok (.Dir c1) ∧
        (rest ≠ [] → c.CreatePath rest = (c1, .ok r) ∧
          ∀ q, q ≠ [] → d1.Find (name :: q) = c1.Find q) := by
      cases hl : syncMap.Load d.nodes name with
      | none =>
        by_cases hr : rest = []
        · subst hr
          rw [dir.CreatePath_none_single d name hl] at h
          cases h
          exact ⟨dir.mk d.opt name [], dir.mk d.opt name [], by simp [dir.WellNamed, WellNamedNodes],
            rfl, rfl, dir.Find_single_store _ _ _ _, fun hne => absurd rfl hne⟩
        · rw [dir.CreatePath_none d name rest hl hr] at h
          rcases hc : (dir.mk d.opt name []).CreatePath rest with ⟨c1, r1⟩
          rw [hc] at h
          cases h
          have hn := (dir.CreatePath_opt_name (dir.mk d.opt name []) rest).2
          rw [hc] at hn
          exact ⟨dir.mk d.opt name [], c1, by simp [dir.WellNamed, WellNamedNodes], rfl, hn,
            dir.Find_single_store _ _ _ _,
            fun _ => ⟨hc, fun q hq => dir.Find_dir_store _ _ name q _ hq⟩⟩
      | some child =>
        cases child with
        | File f => rw [dir.CreatePath_file d name rest f hl] at h; cases h
        | Dir c =>
          obtain ⟨hcn, hcw⟩ := dir.WellNamed_child d c name hwn hl
          by_cases hr : rest = []
          · subst hr
            rw [dir.CreatePath_dir_single d name c hl] at h
            cases h
            exact ⟨r, r, hcw, hcn, hcn, dir.Find_single _ _ _ hl, fun hne => absurd rfl hne⟩
          · rw [dir.CreatePath_dir d name rest c hl hr] at h
            rcases hc : c.CreatePath rest with ⟨c1, r1⟩
            rw [hc] at h
            cases h
            have hn := (dir.CreatePath_opt_name c rest).2
            rw [hc] at hn
            exact ⟨c, c1, hcw, hcn, hn.trans hcn, dir.Find_single_store _ _ _ _,
              fun _ => ⟨hc, fun q hq => dir.Find_dir_store _ _ name q _ hq⟩⟩
    obtain ⟨c, c1, hcw, _, hc1n, hf1, hrest⟩ := key
    cases i with
    | zero => exact ⟨c1, by simpa using hf1, by simp [dir.Name, hc1n]⟩
    | succ j =>
      have hj : j < rest.length := by simpa using hi
      have hr : rest ≠ [] := by
        intro he; subst he; simp at hj
      obtain ⟨hc, hfind⟩ := hrest hr
      obtain ⟨D, hD, hname⟩ := ih c c1 r hcw hc j hj
      have hne : rest.take (j + 1) ≠ [] := by
        cases rest with
        | nil => exact absurd rfl hr
        | cons x xs => simp
      exact ⟨D, by rw [List.take_succ_cons, hfind _ hne]; exact hD, by simpa using hname⟩

/-! ### Key/name consistency is kept by every operation -/

theorem WellNamedNodes_store (ns : syncMap) (k : String) (v : Node)
    (hwn : WellNamedNodes ns) (hname : v.Name = k) (hv : ∀ c, v = .Dir c → c.WellNamed) :
    WellNamedNodes (syncMap.Store ns k v) := by
  have hone : WellNamedNodes [(k, v)] := by
    cases v with
    | File f => exact ⟨hname, trivial⟩
    | Dir c => exact ⟨hname, hv c rfl, trivial⟩
  have hcons : ∀ tl, WellNamedNodes tl → WellNamedNodes ((k, v) :: tl) := by
    intro tl htl
    cases v with
    | File f => exact ⟨hname, htl⟩
    | Dir c => exact ⟨hname, hv c rfl, htl⟩
  induction ns with
  | nil => exact hone
  | cons hd tl ih =>
    obtain ⟨k0, v0⟩ := hd
    by_cases hk : k0 = k
    · simp only [syncMap.Store, hk, if_true]
      cases v0 with
      | File f => exact hcons tl hwn.2
      | Dir c => exact hcons tl hwn.2.2
    · simp only [syncMap.Store, hk, if_false]
      cases v0 with
      | File f => exact ⟨hwn.1, ih hwn.2⟩
      | Dir c => exact ⟨hwn.1, hwn.2.1, ih hwn.2.2⟩

theorem dir.WellNamed_iff (d : dir) : d.WellNamed ↔ WellNamedNodes d.nodes := by
  cases d; simp [dir.WellNamed, dir.nodes]

theorem dir.WellNamed_store (d : dir) (k : String) (v : Node) (hwn : d.WellNamed)
    (hname : v.Name = k) (hv : ∀ c, v = .Dir c → c.WellNamed) :
    (d.withNodes (syncMap.Store d.nodes k v)).WellNamed := by
  rw [dir.WellNamed_iff] at hwn ⊢
  exact WellNamedNodes_store d.nodes k v hwn hname hv

theorem dir.WellNamed_empty (opt : fileSystemOptions) (name : String) :
    (dir.mk opt name []).WellNamed := by
  simp [dir.WellNamed, WellNamedNodes]

theorem dir.CreatePath_wellNamed (p : List String) : ∀ (d : dir), d.WellNamed →
    (d.CreatePath p).1.WellNamed := by
  induction p with
  | nil => intro d h; exact h
  | cons name rest ih =>
    intro d hwn
    cases hl : syncMap.Load d.nodes name with
    | none =>
      by_cases hr : rest = []
      · subst hr
        rw [dir.CreatePath_none_single d name hl]
        exact dir.WellNamed_store d name _ hwn rfl
          (fun c hc => by cases hc; exact dir.WellNamed_empty _ _)
      · rw [dir.CreatePath_none d name rest hl hr]
        exact dir.WellNamed_store d name _ hwn
          (dir.CreatePath_opt_name (dir.mk d.opt name []) rest).2
          (fun c hc => by cases hc; exact ih _ (dir.WellNamed_empty _ _))
    | some child =>
      cases child with
      | File f => rw [dir.CreatePath_file d name rest f hl]; exact hwn
      | Dir c =>
        obtain ⟨hcn, hcw⟩ := dir.WellNamed_child d c name hwn hl
        by_cases hr : rest = []
        · subst hr
          rw [dir.CreatePath_dir_single d name c hl]; exact hwn
        · rw [dir.CreatePath_dir d name rest c hl hr]
          exact dir.WellNamed_store d name _ hwn
            ((dir.CreatePath_opt_name c rest).2.trans hcn)
            (fun c2 hc => by cases hc; exact ih _ hcw)

theorem dir.Find_wellNamed (p : List String) : ∀ (d D : dir), d.WellNamed →
    d.Find p = .ok (.Dir D) → D.WellNamed := by
  induction p with
  | nil => intro d D _ h; cases h
  | cons name rest ih =>
    intro d D hwn h
    by_cases hr : rest = []
    · subst hr
      exact (dir.WellNamed_child d D name hwn (dir.Find_single_ok d name _ h)).2
    · obtain ⟨c, hl, hc⟩ := dir.Find_cons_ok_dir d name rest _ hr h
      exact ih c D (dir.WellNamed_child d c name hwn hl).2 hc

theorem dir.writeBack_name (p : List String) (d new : dir) (hp : p ≠ []) :
    (d.writeBack p new).name = d.name := by
  cases p with
  | nil => exact absurd rfl hp
  | cons name rest =>
    simp only [dir.writeBack]
    cases hl : syncMap.Load d.nodes name with
    | none => rfl
    | some child => cases child <;> rfl

theorem dir.writeBack_self (p : List String) : ∀ (d D : dir), p ≠ [] →
    d.Find p = .ok (.Dir D) → d.writeBack p D = d := by
  induction p with
  | nil => intro d D h; exact absurd rfl h
  | cons name rest ih =>
    intro d D _ hf
    by_cases hr : rest = []
    · subst hr
      have hl := dir.Find_single_ok d name _ hf
      simp [dir.writeBack, hl, syncMap.Store_of_Load _ _ _ hl]
    · obtain ⟨c, hl, hc⟩ := dir.Find_cons_ok_dir d name rest _ hr hf
      simp [dir.writeBack, hl, ih c D hr hc, syncMap.Store_of_Load _ _ _ hl]

theorem dir.writeBack_wellNamed (p : List String) : ∀ (d D new : dir), p ≠ [] →
    d.WellNamed → d.Find p = .ok (.Dir D) → new.WellNamed → new.name = D.name →
    (d.writeBack p new).WellNamed := by
  induction p with
  | nil => intro d D new h; exact absurd rfl h
  | cons name rest ih =>
    intro d D new _ hwn hf hnew hname
    by_cases hr : rest = []
    · subst hr
      have hl := dir.Find_single_ok d name _ hf
      simp only [dir.writeBack, hl]
      exact dir.WellNamed_store d name _ hwn
        (hname.trans (dir.WellNamed_child d D name hwn hl).1)
        (fun c hc => by cases hc; exact hnew)
    · obtain ⟨c, hl, hc⟩ := dir.Find_cons_ok_dir d name rest _ hr hf
      obtain ⟨hcn, hcw⟩ := dir.WellNamed_child d c name hwn hl
      simp only [dir.writeBack, hl]
      exact dir.WellNamed_store d name _ hwn
        ((dir.writeBack_name rest c new hr).trans hcn)
        (fun c2 hc2 => by cases hc2; exact ih c D new hr hcw hc hnew hname)

theorem Mkdir_wellNamed (fs : fileSystem) (path : String) (hwn : fs.dir.WellNamed) :
    (fs.Mkdir path).1.dir.WellNamed := by
  cases hflag : fs.dir.opt.pFlagDisabled with
  | false =>
    rw [Mkdir_unfold_permissive fs path hflag]
    have := dir.CreatePath_wellNamed (strings.Split path '/') fs.dir hwn
    rcases hc : fs.dir.CreatePath (strings.Split path '/') with ⟨d1, r⟩
    rw [hc] at this
    cases r <;> exact this
  | true =>
    obtain ⟨pp, f, hs, _, _⟩ := segments_shape path
    rw [Mkdir_unfold_restrictive fs path pp f hs hflag]
    cases hf : fs.dir.Find pp with
    | panic => exact hwn
    | err e => exact hwn
    | ok n =>
      cases n with
      | File fl => exact hwn
      | Dir D =>
        dsimp only
        have hp : pp ≠ [] := by
          intro he; subst he; cases hf
        have hD := dir.Find_wellNamed pp fs.dir D hwn hf
        have key : (D.CreateDir f).1.WellNamed ∧ (D.CreateDir f).1.name = D.name := by
          unfold dir.CreateDir
          split
          · exact ⟨hD, rfl⟩
          · exact ⟨dir.WellNamed_store D f _ hD rfl
              (fun c hc => by cases hc; exact dir.WellNamed_empty _ _), rfl⟩
        have hwb := dir.writeBack_wellNamed pp fs.dir D _ hp hwn hf key.1 key.2
        rcases hcd : D.CreateDir f with ⟨D1, r⟩
        rw [hcd] at hwb
        cases r <;> exact hwb

theorem WriteFile_wellNamed (fs : fileSystem) (path data : String) (hwn : fs.dir.WellNamed) :
    (fs.WriteFile path data).1.dir.WellNamed := by
  obtain ⟨pp, f, hs, _, _⟩ := segments_shape path
  rw [WriteFile_unfold fs path data pp f hs]
  have hroot : (fs.resolveParent pp).1.WellNamed := by
    unfold fileSystem.resolveParent
    cases hflag : fs.dir.opt.pFlagDisabled with
    | true => exact hwn
    | false =>
      have := dir.CreatePath_wellNamed pp fs.dir hwn
      simp only [Bool.not_false, if_true]
      rcases hc : fs.dir.CreatePath pp with ⟨d1, r⟩
      rw [hc] at this
      cases r <;> exact this
  rcases hrp : fs.resolveParent pp with ⟨root1, r⟩
  rw [hrp] at hroot
  cases r with
  | panic => exact hroot
  | err e => exact hroot
  | ok n =>
    obtain ⟨hp, hfind, _, _⟩ := resolveParent_ok fs pp root1 n hrp
    cases n with
    | File fl => exact hroot
    | Dir D =>
      dsimp only
      have hD := dir.Find_wellNamed pp root1 D hroot hfind
      rcases hl : syncMap.Load D.nodes f with _ | child
      · exact dir.writeBack_wellNamed pp root1 D _ hp hroot hfind
          (dir.WellNamed_store D f _ hD rfl (fun c hc => by cases hc)) rfl
      · cases child with
        | Dir c => exact hroot
        | File fl =>
          have hfl := (WellNamedNodes_load D.nodes f _ ((dir.WellNamed_iff D).1 hD) hl).1
          exact dir.writeBack_wellNamed pp root1 D _ hp hroot hfind
            (dir.WellNamed_store D f _ hD hfl (fun c hc => by cases hc)) rfl

/-- Every state of a filesystem stores each child, at any depth, under its own
name. -/
theorem Reachable.wellNamed (fs : fileSystem) (h : Reachable fs) : fs.dir.WellNamed := by
  induction h with
  | new opts => exact dir.WellNamed_empty _ _
  | mkdir fs path _ ih => exact Mkdir_wellNamed fs path ih
  | writeFile fs path data _ ih => exact WriteFile_wellNamed fs path data ih

/-! ### Writing a mutated directory back into the tree -/

theorem dir.writeBack_opt (p : List String) (d new : dir) (hp : p ≠ []) :
    (d.writeBack p new).opt = d.opt := by
  cases p with
  | nil => exact absurd rfl hp
  | cons name rest =>
    simp only [dir.writeBack]
    cases hl : syncMap.Load d.nodes name with
    | none => rfl
    | some child => cases child <;> rfl

theorem dir.descend_of_Find (p : List String) : ∀ (d D : dir), p ≠ [] →
    d.Find p = .ok (.Dir D) → d.descend p = some D := by
  induction p with
  | nil => intro d D h; exact absurd rfl h
  | cons name rest ih =>
    intro d D _ hf
    by_cases hr : rest = []
    · subst hr
      simp [dir.descend, dir.Find_single_ok d name _ hf]
    · obtain ⟨c, hl, hc⟩ := dir.Find_cons_ok_dir d name rest _ hr hf
      simp only [dir.descend, hl]
      exact ih c D hr hc

theorem dir.Find_of_descend (p : List String) : ∀ (d D : dir), p ≠ [] →
    d.descend p = some D → d.Find p = .ok (.Dir D) := by
  induction p with
  | nil => intro d D h; exact absurd rfl h
  | cons name rest ih =>
    intro d D _ hd
    simp only [dir.descend] at hd
    cases hl : syncMap.Load d.nodes name with
    | none => rw [hl] at hd; cases hd
    | some child =>
      rw [hl] at hd
      cases child with
      | File f => cases hd
      | Dir c =>
        by_cases hr : rest = []
        · subst hr
          simp only [dir.descend, Option.some.injEq] at hd
          subst hd
          exact dir.Find_single d name _ hl
        · rw [dir.Find_dir d name rest c hl hr]
          exact ih c D hr hd

theorem dir.writeBack_cons (d c new : dir) (name : String) (rest : List String)
    (hl : syncMap.Load d.nodes name = some (.Dir c)) :
    d.writeBack (name :: rest) new
      = d.withNodes (syncMap.Store d.nodes name (.Dir (c.writeBack rest new))) := by
  simp [dir.writeBack, hl]

/-- Writing back a grown directory keeps every node the tree had: if the
directory at `pp` keeps its nodes (up to `R`) when it becomes `D1`, so does the
tree around it. -/
theorem dir.writeBack_keeps (R : Node → Node → Prop) (hrefl : ∀ n, R n n)
    (hdir : ∀ c e : dir, c.name = e.name → c.opt = e.opt → R (.Dir c) (.Dir e))
    (pp : List String) : ∀ (d D D1 : dir), pp ≠ [] → d.Find pp = .ok (.Dir D) →
    D.name = D1.name → D.opt = D1.opt →
    (∀ q n, D.Find q = .ok n → ∃ n1, D1.Find q = .ok n1 ∧ R n n1) →
    ∀ q n, d.Find q = .ok n → ∃ n1, (d.writeBack pp D1).Find q = .ok n1 ∧ R n n1 := by
  induction pp with
  | nil => intro d D D1 h; exact absurd rfl h
  | cons name rest ih =>
    intro d D D1 _ hf hname hopt hkeep q n hq
    cases q with
    | nil => cases hq
    | cons k qrest =>
      have hc : ∃ c, syncMap.Load d.nodes name = some (.Dir c) ∧
          (rest = [] → c = D) ∧ (rest ≠ [] → c.Find rest = .ok (.Dir D)) := by
        by_cases hr : rest = []
        · subst hr
          exact ⟨D, dir.Find_single_ok d name _ hf, fun _ => rfl, fun h => absurd rfl h⟩
        · obtain ⟨c, hl, hc⟩ := dir.Find_cons_ok_dir d name rest _ hr hf
          exact ⟨c, hl, fun h => absurd h hr, fun _ => hc⟩
      obtain ⟨c, hl, hc0, hc1⟩ := hc
      rw [dir.writeBack_cons d c D1 name rest hl]
      by_cases hk : name = k
      · subst hk
        by_cases hqr : qrest = []
        · subst hqr
          rw [dir.Find_single d name _ hl] at hq
          cases hq
          refine ⟨_, dir.Find_single_store _ _ _ _, ?_⟩
          by_cases hr : rest = []
          · subst hr
            have := hc0 rfl
            subst this
            exact hdir _ _ hname hopt
          · exact hdir _ _ (dir.writeBack_name rest c D1 hr).symm
              (dir.writeBack_opt rest c D1 hr).symm
        · rw [dir.Find_dir d name qrest c hl hqr] at hq
          rw [dir.Find_dir_store _ _ name qrest _ hqr]
          by_cases hr : rest = []
          · subst hr
            have := hc0 rfl
            subst this
            exact hkeep qrest n hq
          · exact ih c D D1 hr (hc1 hr) hname hopt hkeep qrest n hq
      · exact ⟨n, by rw [dir.Find_store_other d name k _ qrest hk]; exact hq, hrefl n⟩

/-- Writing back a directory that gained at most the child `f` adds at most the
segment list `pp ++ [f]` to what the tree resolves. -/
theorem dir.writeBack_only_new (f : String) (pp : List String) : ∀ (d D D1 : dir),
    pp ≠ [] → d.Find pp = .ok (.Dir D) →
    (∀ r n1, D1.Find r = .ok n1 → r = [f] ∨ ∃ n, D.Find r = .ok n) →
    ∀ q n1, (d.writeBack pp D1).Find q = .ok n1 → q = pp ++ [f] ∨ ∃ n, d.Find q = .ok n := by
  induction pp with
  | nil => intro d D D1 h; exact absurd rfl h
  | cons name rest ih =>
    intro d D D1 _ hf honly q n1 hq
    cases q with
    | nil => cases hq
    | cons k qrest =>
      have hc : ∃ c, syncMap.Load d.nodes name = some (.Dir c) ∧
          (rest = [] → c = D) ∧ (rest ≠ [] → c.Find rest = .ok (.Dir D)) := by
        by_cases hr : rest = []
        · subst hr
          exact ⟨D, dir.Find_single_ok d name _ hf, fun _ => rfl, fun h => absurd rfl h⟩
        · obtain ⟨c, hl, hc⟩ := dir.Find_cons_ok_dir d name rest _ hr hf
          exact ⟨c, hl, fun h => absurd h hr, fun _ => hc⟩
      obtain ⟨c, hl, hc0, hc1⟩ := hc
      rw [dir.writeBack_cons d c D1 name rest hl] at hq
      by_cases hk : name = k
      · subst hk
        by_cases hqr : qrest = []
        · subst hqr
          exact Or.inr ⟨_, dir.Find_single d name _ hl⟩
        · rw [dir.Find_dir_store _ _ name qrest _ hqr] at hq
          by_cases hr : rest = []
          · subst hr
            have := hc0 rfl
            subst this
            rcases honly qrest n1 hq with h1 | ⟨n, hn⟩
            · left; simp [h1]
            · right; exact ⟨n, by rw [dir.Find_dir d name qrest _ hl hqr]; exact hn⟩
          · rcases ih c D D1 hr (hc1 hr) honly qrest n1 hq with h1 | ⟨n, hn⟩
            · left; simp [h1]
            · right; exact ⟨n, by rw [dir.Find_dir d name qrest _ hl hqr]; exact hn⟩
      · rw [dir.Find_store_other d name k _ qrest hk] at hq
        exact Or.inr ⟨n1, hq⟩

/-- Storing a child under a fresh name changes no lookup that succeeded. -/
theorem dir.store_fresh_keeps (D : dir) (f : String) (v : Node)
    (hl : syncMap.Load D.nodes f = none) (q : List String) (n : Node)
    (hq : D.Find q = .ok n) :
    (D.withNodes (syncMap.Store D.nodes f v)).Find q = .ok n := by
  cases q with
  | nil => cases hq
  | cons k qrest =>
    have hne : f ≠ k := by
      intro he
      subst he
      obtain ⟨w, hw⟩ := dir.Find_cons_ok_load D f qrest n hq
      rw [hl] at hw; cases hw
    rw [dir.Find_store_other D f k v qrest hne]
    exact hq

/-- Storing a file or an empty directory under a name makes `[f]` the only
segment list that may resolve newly. -/
theorem dir.store_leaf_only_new (D : dir) (f : String) (v : Node)
    (hleaf : ∀ c, v = .Dir c → c.nodes = []) (r : List String) (n1 : Node)
    (hr : (D.withNodes (syncMap.Store D.nodes f v)).Find r = .ok n1) :
    r = [f] ∨ ∃ n, D.Find r = .ok n := by
  cases r with
  | nil => cases hr
  | cons k rrest =>
    by_cases hk : f = k
    · subst hk
      by_cases hrr : rrest = []
      · left; rw [hrr]
      · exfalso
        cases v with
        | File fl =>
          rw [dir.Find_file _ f rrest fl
            (by simpa using syncMap.Load_Store_same D.nodes f (.File fl)) hrr] at hr
          cases hr
        | Dir c =>
          rw [dir.Find_dir_store _ _ f rrest c hrr] at hr
          have hc := hleaf c rfl
          cases c with
          | mk o nm ns =>
            simp only [dir.nodes] at hc
            subst hc
            exact dir.Find_empty o nm rrest n1 hr
    · rw [dir.Find_store_other D f k v rrest hk] at hr
      exact Or.inr ⟨n1, hr⟩

theorem NodeOf.persistsAs_refl (n : Node) : n.persistsAs n := by
  cases n with
  | File f => exact ⟨rfl, "", by simp⟩
  | Dir c => exact rfl

theorem NodeOf.persistsAs_trans (a b c : Node) (h1 : a.persistsAs b) (h2 : b.persistsAs c) :
    a.persistsAs c := by
  cases a with
  | File f =>
    cases b with
    | File g =>
      cases c with
      | File h =>
        obtain ⟨hn1, t1, ht1⟩ := h1
        obtain ⟨hn2, t2, ht2⟩ := h2
        exact ⟨hn1.trans hn2, t1 ++ t2, by rw [ht2, ht1, String.append_assoc]⟩
      | Dir e => exact h2.elim
    | Dir e => exact h1.elim
  | Dir d =>
    cases b with
    | File g => exact h1.elim
    | Dir e =>
      cases c with
      | File h => exact h2.elim
      | Dir e2 => exact Eq.trans h1 h2

theorem NodeOf.persistsAs_of_sameNode (a b : Node) (h : a.sameNode b) : a.persistsAs b := by
  cases a with
  | File f =>
    cases b with
    | File g =>
      have : f = g := h
      subst this
      exact NodeOf.persistsAs_refl _
    | Dir e => exact h.elim
  | Dir d =>
    cases b with
    | File g => exact h.elim
    | Dir e => exact h.1

theorem dir.KeepsAll_refl (d : dir) : d.KeepsAll d :=
  fun _ n h => ⟨n, h, NodeOf.persistsAs_refl n⟩

theorem dir.KeepsAll_trans (a b c : dir) (h1 : a.KeepsAll b) (h2 : b.KeepsAll c) :
    a.KeepsAll c := by
  intro p n hp
  obtain ⟨n1, hn1, hr1⟩ := h1 p n hp
  obtain ⟨n2, hn2, hr2⟩ := h2 p n1 hn1
  exact ⟨n2, hn2, NodeOf.persistsAs_trans _ _ _ hr1 hr2⟩

/-- Appending to the file stored under `f` keeps every node of the directory. -/
theorem dir.store_append_keeps (D : dir) (f : String) (fl : file) (data : String)
    (hl : syncMap.Load D.nodes f = some (.File fl)) :
    D.KeepsAll (D.withNodes (syncMap.Store D.nodes f (.File (fl.Append data)))) := by
  intro q n hq
  cases q with
  | nil => cases hq
  | cons k qrest =>
    by_cases hk : f = k
    · subst hk
      by_cases hqr : qrest = []
      · subst hqr
        rw [dir.Find_single D f _ hl] at hq
        cases hq
        exact ⟨_, dir.Find_single_store _ _ _ _, rfl, data, rfl⟩
      · rw [dir.Find_file D f qrest fl hl hqr] at hq
        cases hq
    · exact ⟨n, by rw [dir.Find_store_other D f k _ qrest hk]; exact hq,
        NodeOf.persistsAs_refl n⟩

/-! ### `Find` as a lookup, and the splitting of paths -/

theorem dir.Find_iff_lookupChain (p : List String) : ∀ (d : dir) (x : Node),
    d.Find p = .ok x ↔ d.lookupChain p = some x := by
  induction p with
  | nil => intro d x; simp [dir.Find, dir.lookupChain]
  | cons s rest ih =>
    intro d x
    cases rest with
    | nil =>
      cases hl : syncMap.Load d.nodes s with
      | none => simp [dir.Find_none d s [] hl, dir.lookupChain, hl]
      | some child => simp [dir.Find_single d s child hl, dir.lookupChain, hl]
    | cons t rest =>
      cases hl : syncMap.Load d.nodes s with
      | none => simp [dir.Find_none d s _ hl, dir.lookupChain, hl]
      | some child =>
        cases child with
        | File f => simp [dir.Find_file d s (t :: rest) f hl (by simp), dir.lookupChain, hl]
        | Dir c =>
          rw [dir.Find_dir d s (t :: rest) c hl (by simp)]
          simp only [dir.lookupChain, hl]
          exact ih c x

theorem splitChars_length (sep : Char) (cs : List Char) :
    (splitChars sep cs).length = cs.count sep + 1 := by
  induction cs with
  | nil => simp [splitChars]
  | cons c cs ih =>
    by_cases hc : c = sep
    · subst hc
      simp [splitChars, ih]
    · have hne : (c == sep) = false := by simpa using hc
      simp only [splitChars, hc, if_false]
      cases hs : splitChars sep cs with
      | nil => exact absurd hs (splitChars_ne_nil sep cs)
      | cons seg segs =>
        rw [hs] at ih
        simp only [List.length_cons] at ih ⊢
        rw [List.count_cons, hne]
        simpa using ih

theorem splitChars_glue (sep : Char) (cs : List Char) :
    ∃ seg segs, splitChars sep cs = seg :: segs ∧
      seg ++ (segs.map (fun a => sep :: a)).flatten = cs := by
  induction cs with
  | nil => exact ⟨[], [], rfl, rfl⟩
  | cons c cs ih =>
    obtain ⟨seg, segs, hs, hg⟩ := ih
    by_cases hc : c = sep
    · subst hc
      refine ⟨[], seg :: segs, by simp [splitChars, hs], ?_⟩
      simp [hg]
    · refine ⟨c :: seg, segs, by simp [splitChars, hc, hs], ?_⟩
      simp [hg]

theorem intercalate_go_data (s : String) (l : List String) : ∀ acc : String,
    (String.intercalate.go acc s l).data
      = acc.data ++ (l.map (fun a => s.data ++ a.data)).flatten := by
  induction l with
  | nil => intro acc; simp [String.intercalate.go]
  | cons a as ih =>
    intro acc
    simp [String.intercalate.go, ih, String.data_append, List.append_assoc]

theorem strings.Split_join (path : String) :
    "/".intercalate (strings.Split path '/') = path := by
  obtain ⟨seg, segs, hs, hg⟩ := splitChars_glue '/' path.data
  apply String.ext
  simp only [strings.Split, hs, List.map_cons, String.intercalate]
  rw [intercalate_go_data]
  simp only [List.map_map]
  rw [← hg]
  congr 1

theorem kind_mismatch_with_ancestors (fs : fileSystem) (path data : String) (D : dir)
    (hlen : 2 ≤ (strings.Split path '/').length)
    (h : fs.dir.Find (strings.Split path '/') = .ok (.Dir D)) :
    fs.ReadFile path = .err (.errorString ("error reading non-file: " ++ path)) ∧
    fs.WriteFile path data
      = (fs, .err (.errorString ("error writing to non-file: " ++ path))) := by
  refine ⟨by simp [fileSystem.ReadFile, h], ?_⟩
  obtain ⟨pp, f, hs, _, _⟩ := segments_shape path
  rw [hs] at h hlen
  have hp : pp ≠ [] := by
    intro he; subst he; simp at hlen
  -- the ancestors resolve to a directory that holds the target under `f`
  have hpar : ∃ P, fs.dir.Find pp = .ok (.Dir P) ∧ syncMap.Load P.nodes f = some (.Dir D) := by
    have key : ∀ (pp : List String) (d : dir), pp ≠ [] →
        d.Find (pp ++ [f]) = .ok (.Dir D) →
        ∃ P, d.Find pp = .ok (.Dir P) ∧ syncMap.Load P.nodes f = some (.Dir D) := by
      intro pp
      induction pp with
      | nil => intro d h; exact absurd rfl h
      | cons a rest ih =>
        intro d _ hd
        obtain ⟨c, hl, hc⟩ := dir.Find_cons_ok_dir d a (rest ++ [f]) _ (by simp) hd
        by_cases hr : rest = []
        · subst hr
          exact ⟨c, dir.Find_single d a _ hl, dir.Find_single_ok c f _ hc⟩
        · obtain ⟨P, hP, hPl⟩ := ih c hr hc
          exact ⟨P, by rw [dir.Find_dir d a rest c hl hr]; exact hP, hPl⟩
    exact key pp fs.dir hp h
  obtain ⟨P, hP, hPl⟩ := hpar
  rw [WriteFile_unfold fs path data pp f hs, resolveParent_of_Find fs pp P hP]
  simp only [hPl]

/-! ### What each operation keeps, and what a failed one leaves -/

theorem dir.CreateDir_cases (d : dir) (name : String) :
    (d.HasChild name = true ∧
      d.CreateDir name = (d, .err (.errorString (name ++ " dir already exists")))) ∨
    (syncMap.Load d.nodes name = none ∧
      d.CreateDir name
        = (d.withNodes (syncMap.Store d.nodes name (.Dir (dir.mk d.opt name []))),
            .ok (dir.mk d.opt name []))) := by
  cases hc : d.HasChild name with
  | true => left; simp [dir.CreateDir, hc]
  | false => right; exact ⟨(dir.HasChild_false_iff d name).1 hc, by simp [dir.CreateDir, hc]⟩

theorem dir.CreateFile_cases (d : dir) (name data : String) :
    (d.HasChild name = true ∧
      d.CreateFile name data = (d, .err (.errorString ("file already exists: " ++ name)))) ∨
    (syncMap.Load d.nodes name = none ∧
      d.CreateFile name data
        = (d.withNodes (syncMap.Store d.nodes name (.File ⟨data, name⟩)), .ok ())) := by
  cases hc : d.HasChild name with
  | true => left; simp [dir.CreateFile, hc]
  | false => right; exact ⟨(dir.HasChild_false_iff d name).1 hc, by simp [dir.CreateFile, hc]⟩

theorem dir.CreateDir_keeps (d : dir) (name : String) :
    d.KeepsAll (d.CreateDir name).1 ∧ (d.CreateDir name).1.name = d.name
      ∧ (d.CreateDir name).1.opt = d.opt := by
  rcases dir.CreateDir_cases d name with ⟨_, h⟩ | ⟨hl, h⟩
  · rw [h]; exact ⟨dir.KeepsAll_refl d, rfl, rfl⟩
  · rw [h]
    exact ⟨fun q n hq => ⟨n, dir.store_fresh_keeps d name _ hl q n hq,
      NodeOf.persistsAs_refl n⟩, rfl, rfl⟩

theorem dir.CreateFile_keeps (d : dir) (name data : String) :
    d.KeepsAll (d.CreateFile name data).1 ∧ (d.CreateFile name data).1.name = d.name
      ∧ (d.CreateFile name data).1.opt = d.opt := by
  rcases dir.CreateFile_cases d name data with ⟨_, h⟩ | ⟨hl, h⟩
  · rw [h]; exact ⟨dir.KeepsAll_refl d, rfl, rfl⟩
  · rw [h]
    exact ⟨fun q n hq => ⟨n, dir.store_fresh_keeps d name _ hl q n hq,
      NodeOf.persistsAs_refl n⟩, rfl, rfl⟩

theorem dir.CreatePath_keeps (d : dir) (path : List String) :
    d.KeepsAll (d.CreatePath path).1 := by
  intro q n hq
  obtain ⟨n1, h1, h2⟩ := dir.CreatePath_preserves_Find path d q n hq
  exact ⟨n1, h1, NodeOf.persistsAs_of_sameNode n n1 h2⟩

/-- A method that mutates the directory `D` found at `loc`, keeping its nodes,
its name and its options, keeps every node of the tree around it. -/
theorem dir.KeepsAll_writeBack (root D D1 : dir) (loc : List String)
    (hD : root.descend loc = some D) (hname : D.name = D1.name) (hopt : D.opt = D1.opt)
    (hkeep : D.KeepsAll D1) : root.KeepsAll (root.writeBack loc D1) := by
  by_cases hloc : loc = []
  · subst hloc
    simp only [dir.descend, Option.some.injEq] at hD
    subst hD
    exact hkeep
  · exact dir.writeBack_keeps NodeOf.persistsAs NodeOf.persistsAs_refl
      (fun c e h1 _ => h1) loc root D D1 hloc (dir.Find_of_descend loc root D hloc hD)
      hname hopt hkeep

theorem Mkdir_keeps (fs : fileSystem) (path : String) :
    fs.dir.KeepsAll (fs.Mkdir path).1.dir := by
  cases hflag : fs.dir.opt.pFlagDisabled with
  | false =>
    rw [Mkdir_unfold_permissive fs path hflag]
    have := dir.CreatePath_keeps fs.dir (strings.Split path '/')
    rcases hc : fs.dir.CreatePath (strings.Split path '/') with ⟨d1, r⟩
    rw [hc] at this
    cases r <;> exact this
  | true =>
    obtain ⟨pp, f, hs, _, _⟩ := segments_shape path
    rw [Mkdir_unfold_restrictive fs path pp f hs hflag]
    cases hf : fs.dir.Find pp with
    | panic => exact dir.KeepsAll_refl _
    | err e => exact dir.KeepsAll_refl _
    | ok n =>
      cases n with
      | File fl => exact dir.KeepsAll_refl _
      | Dir P =>
        dsimp only
        have hp : pp ≠ [] := by
          intro he; subst he; cases hf
        obtain ⟨hk, hn, ho⟩ := dir.CreateDir_keeps P f
        have hwb := dir.KeepsAll_writeBack fs.dir P _ pp
          (dir.descend_of_Find pp fs.dir P hp hf) hn.symm ho.symm hk
        rcases hcd : P.CreateDir f with ⟨P1, r⟩
        rw [hcd] at hwb
        cases r <;> exact hwb

theorem resolveParent_keeps (fs : fileSystem) (pp : List String) :
    fs.dir.KeepsAll (fs.resolveParent pp).1 := by
  unfold fileSystem.resolveParent
  cases hflag : fs.dir.opt.pFlagDisabled with
  | true => exact dir.KeepsAll_refl _
  | false =>
    have := dir.CreatePath_keeps fs.dir pp
    simp only [Bool.not_false, if_true]
    rcases hc : fs.dir.CreatePath pp with ⟨d1, r⟩
    rw [hc] at this
    cases r <;> exact this

theorem WriteFile_keeps (fs : fileSystem) (path data : String) :
    fs.dir.KeepsAll (fs.WriteFile path data).1.dir := by
  obtain ⟨pp, f, hs, _, _⟩ := segments_shape path
  rw [WriteFile_unfold fs path data pp f hs]
  have hroot := resolveParent_keeps fs pp
  rcases hrp : fs.resolveParent pp with ⟨root1, r⟩
  rw [hrp] at hroot
  cases r with
  | panic => exact hroot
  | err e => exact hroot
  | ok n =>
    obtain ⟨hp, hfind, _, _⟩ := resolveParent_ok fs pp root1 n hrp
    cases n with
    | File fl => exact hroot
    | Dir P =>
      dsimp only
      have hdesc := dir.descend_of_Find pp root1 P hp hfind
      rcases hl : syncMap.Load P.nodes f with _ | child
      · exact dir.KeepsAll_trans _ _ _ hroot
          (dir.KeepsAll_writeBack root1 P _ pp hdesc rfl rfl
            (fun q n hq => ⟨n, dir.store_fresh_keeps P f _ hl q n hq,
              NodeOf.persistsAs_refl n⟩))
      · cases child with
        | Dir c => exact hroot
        | File fl =>
          exact dir.KeepsAll_trans _ _ _ hroot
            (dir.KeepsAll_writeBack root1 P _ pp hdesc rfl rfl
              (dir.store_append_keeps P f fl data hl))

theorem dir.CreatePath_err_unchanged (p : List String) : ∀ (d d1 : dir) (e : error),
    d.CreatePath p = (d1, .err e) → d1 = d := by
  induction p with
  | nil => intro d d1 e h; cases h
  | cons name rest ih =>
    intro d d1 e h
    cases hl : syncMap.Load d.nodes name with
    | none =>
      exfalso
      by_cases hr : rest = []
      · subst hr
        rw [dir.CreatePath_none_single d name hl] at h
        cases h
      · rw [dir.CreatePath_none d name rest hl hr] at h
        obtain ⟨c1, r, hc⟩ := dir.CreatePath_succeeds rest (dir.mk d.opt name []) hr
          (fun i f => dir.Find_empty _ _ _ _)
        rw [hc] at h
        cases h
    | some child =>
      cases child with
      | File f =>
        rw [dir.CreatePath_file d name rest f hl] at h
        cases h; rfl
      | Dir c =>
        by_cases hr : rest = []
        · subst hr
          rw [dir.CreatePath_dir_single d name c hl] at h
          cases h
        · rw [dir.CreatePath_dir d name rest c hl hr] at h
          rcases hc : c.CreatePath rest with ⟨c1, r⟩
          rw [hc] at h
          cases h
          have := ih c c1 e hc
          subst this
          simp [syncMap.Store_of_Load _ _ _ hl]

theorem Mkdir_err_unchanged (fs fs1 : fileSystem) (path : String) (e : error)
    (h : fs.Mkdir path = (fs1, .err e)) : fs1 = fs := by
  cases hflag : fs.dir.opt.pFlagDisabled with
  | false =>
    rw [Mkdir_unfold_permissive fs path hflag] at h
    rcases hc : fs.dir.CreatePath (strings.Split path '/') with ⟨d1, r⟩
    rw [hc] at h
    cases r with
    | panic => cases h
    | ok x => cases h
    | err e1 =>
      have := dir.CreatePath_err_unchanged _ _ _ _ hc
      subst this
      cases h; rfl
  | true =>
    obtain ⟨pp, f, hs, _, _⟩ := segments_shape path
    rw [Mkdir_unfold_restrictive fs path pp f hs hflag] at h
    cases hf : fs.dir.Find pp with
    | panic => rw [hf] at h; cases h
    | err e1 => rw [hf] at h; cases h; rfl
    | ok n =>
      rw [hf] at h
      cases n with
      | File fl => cases h; rfl
      | Dir P =>
        dsimp only at h
        have hp : pp ≠ [] := by
          intro he; subst he; cases hf
        rcases dir.CreateDir_cases P f with ⟨_, hcd⟩ | ⟨_, hcd⟩
        · rw [hcd] at h
          simp only [dir.writeBack_self pp fs.dir P hp hf] at h
          cases h; rfl
        · rw [hcd] at h
          cases h

theorem WriteFile_err_unchanged (fs fs1 : fileSystem) (path data : String) (e : error)
    (h : fs.WriteFile path data = (fs1, .err e)) : fs1 = fs := by
  obtain ⟨pp, f, hs, _, _⟩ := segments_shape path
  rw [WriteFile_unfold fs path data pp f hs] at h
  rcases hrp : fs.resolveParent pp with ⟨root1, r⟩
  rw [hrp] at h
  cases r with
  | panic => cases h
  | err e1 =>
    have hroot : root1 = fs.dir := by
      unfold fileSystem.resolveParent at hrp
      cases hflag : fs.dir.opt.pFlagDisabled with
      | true =>
        simp only [hflag, Bool.not_true] at hrp
        simp at hrp
        exact hrp.1.symm
      | false =>
        simp only [hflag, Bool.not_false, if_true] at hrp
        rcases hc : fs.dir.CreatePath pp with ⟨d1, r⟩
        rw [hc] at hrp
        cases r with
        | panic => cases hrp
        | ok x => cases hrp
        | err e2 =>
          have := dir.CreatePath_err_unchanged _ _ _ _ hc
          subst this
          cases hrp; rfl
    subst hroot
    cases h; rfl
  | ok n =>
    obtain ⟨hp, hfind, _, hcases⟩ := resolveParent_ok fs pp root1 n hrp
    cases n with
    | File fl =>
      rcases hcases with ⟨he, _⟩ | ⟨D, hD, _⟩
      · subst he; cases h; rfl
      · cases hD
    | Dir P =>
      dsimp only at h
      rcases hl : syncMap.Load P.nodes f with _ | child
      · rw [hl] at h; cases h
      · rw [hl] at h
        cases child with
        | File fl => cases h
        | Dir c =>
          rcases hcases with ⟨he, _⟩ | ⟨D, hD, hn⟩
          · subst he; cases h; rfl
          · cases hD
            rw [hn] at hl
            cases hl

/-! ### Invariants of every state the operations can build -/

theorem TreeInvariant.createPath {Inv : dir → Prop} (hI : TreeInvariant Inv)
    (p : List String) : ∀ (d : dir), Inv d → Inv (d.CreatePath p).1 := by
  induction p with
  | nil => intro d h; exact h
  | cons name rest ih =>
    intro d hd
    cases hl : syncMap.Load d.nodes name with
    | none =>
      by_cases hr : rest = []
      · subst hr
        rw [dir.CreatePath_none_single d name hl]
        exact hI.storeNew d name _ hd hl rfl (fun c hc => by cases hc; exact hI.empty _ _)
      · rw [dir.CreatePath_none d name rest hl hr]
        exact hI.storeNew d name _ hd hl
          (dir.CreatePath_opt_name (dir.mk d.opt name []) rest).2
          (fun c hc => by cases hc; exact ih _ (hI.empty _ _))
    | some child =>
      cases child with
      | File f => rw [dir.CreatePath_file d name rest f hl]; exact hd
      | Dir c =>
        by_cases hr : rest = []
        · subst hr
          rw [dir.CreatePath_dir_single d name c hl]; exact hd
        · rw [dir.CreatePath_dir d name rest c hl hr]
          exact hI.storeSame d name (.Dir c) _ hd hl (dir.CreatePath_opt_name c rest).2
            (fun c2 hc => by cases hc; exact ih _ (hI.child d c name hd hl))

theorem dir.descend_cons (d D : dir) (name : String) (rest : List String)
    (h : d.descend (name :: rest) = some D) :
    ∃ c, syncMap.Load d.nodes name = some (.Dir c) ∧ c.descend rest = some D := by
  simp only [dir.descend] at h
  cases hl : syncMap.Load d.nodes name with
  | none => rw [hl] at h; cases h
  | some child =>
    rw [hl] at h
    cases child with
    | File f => cases h
    | Dir c => exact ⟨c, rfl, h⟩

theorem TreeInvariant.descend {Inv : dir → Prop} (hI : TreeInvariant Inv)
    (loc : List String) : ∀ (d D : dir), Inv d → d.descend loc = some D → Inv D := by
  induction loc with
  | nil =>
    intro d D hd h
    simp only [dir.descend, Option.some.injEq] at h
    subst h; exact hd
  | cons name rest ih =>
    intro d D hd h
    obtain ⟨c, hl, hc⟩ := dir.descend_cons d D name rest h
    exact ih c D (hI.child d c name hd hl) hc

theorem dir.writeBack_name_descend (loc : List String) (d D D1 : dir)
    (h : d.descend loc = some D) (hname : D1.name = D.name) :
    (d.writeBack loc D1).name = d.name := by
  cases loc with
  | nil =>
    simp only [dir.descend, Option.some.injEq] at h
    subst h
    exact hname
  | cons name rest => exact dir.writeBack_name _ d D1 (by simp)

theorem TreeInvariant.writeBack {Inv : dir → Prop} (hI : TreeInvariant Inv)
    (loc : List String) : ∀ (d D D1 : dir), Inv d → d.descend loc = some D → Inv D1 →
    D1.name = D.name → Inv (d.writeBack loc D1) := by
  induction loc with
  | nil => intro d D D1 _ _ h1 _; exact h1
  | cons name rest ih =>
    intro d D D1 hd h h1 hname
    obtain ⟨c, hl, hc⟩ := dir.descend_cons d D name rest h
    rw [dir.writeBack_cons d c D1 name rest hl]
    exact hI.storeSame d name (.Dir c) _ hd hl
      (dir.writeBack_name_descend rest c D D1 hc hname)
      (fun c2 hc2 => by cases hc2; exact ih c D D1 (hI.child d c name hd hl) hc h1 hname)

theorem TreeInvariant.createDir {Inv : dir → Prop} (hI : TreeInvariant Inv)
    (D : dir) (name : String) (hD : Inv D) : Inv (D.CreateDir name).1 := by
  rcases dir.CreateDir_cases D name with ⟨_, h⟩ | ⟨hl, h⟩
  · rw [h]; exact hD
  · rw [h]
    exact hI.storeNew D name _ hD hl rfl (fun c hc => by cases hc; exact hI.empty _ _)

theorem TreeInvariant.createFile {Inv : dir → Prop} (hI : TreeInvariant Inv)
    (D : dir) (name data : String) (hD : Inv D) : Inv (D.CreateFile name data).1 := by
  rcases dir.CreateFile_cases D name data with ⟨_, h⟩ | ⟨hl, h⟩
  · rw [h]; exact hD
  · rw [h]
    exact hI.storeNew D name _ hD hl rfl (fun c hc => by cases hc)

theorem TreeInvariant.append {Inv : dir → Prop} (hI : TreeInvariant Inv)
    (D : dir) (name : String) (f : file) (data : String) (hD : Inv D)
    (hl : syncMap.Load D.nodes name = some (.File f)) :
    Inv (D.withNodes (syncMap.Store D.nodes name (.File (f.Append data)))) :=
  hI.storeSame D name (.File f) _ hD hl rfl (fun c hc => by cases hc)

theorem TreeInvariant.mkdir {Inv : dir → Prop} (hI : TreeInvariant Inv)
    (fs : fileSystem) (path : String) (hfs : Inv fs.dir) : Inv (fs.Mkdir path).1.dir := by
  cases hflag : fs.dir.opt.pFlagDisabled with
  | false =>
    rw [Mkdir_unfold_permissive fs path hflag]
    have := hI.createPath (strings.Split path '/') fs.dir hfs
    rcases hc : fs.dir.CreatePath (strings.Split path '/') with ⟨d1, r⟩
    rw [hc] at this
    cases r <;> exact this
  | true =>
    obtain ⟨pp, f, hs, _, _⟩ := segments_shape path
    rw [Mkdir_unfold_restrictive fs path pp f hs hflag]
    cases hf : fs.dir.Find pp with
    | panic => exact hfs
    | err e => exact hfs
    | ok n =>
      cases n with
      | File fl => exact hfs
      | Dir P =>
        dsimp only
        have hp : pp ≠ [] := by
          intro he; subst he; cases hf
        have hdesc := dir.descend_of_Find pp fs.dir P hp hf
        have hwb := hI.writeBack pp fs.dir P _ hfs hdesc
          (hI.createDir P f (hI.descend pp fs.dir P hfs hdesc)) (dir.CreateDir_keeps P f).2.1
        rcases hcd : P.CreateDir f with ⟨P1, r⟩
        rw [hcd] at hwb
        cases r <;> exact hwb

theorem TreeInvariant.writeFile {Inv : dir → Prop} (hI : TreeInvariant Inv)
    (fs : fileSystem) (path data : String) (hfs : Inv fs.dir) :
    Inv (fs.WriteFile path data).1.dir := by
  obtain ⟨pp, f, hs, _, _⟩ := segments_shape path
  rw [WriteFile_unfold fs path data pp f hs]
  have hroot : Inv (fs.resolveParent pp).1 := by
    unfold fileSystem.resolveParent
    cases hflag : fs.dir.opt.pFlagDisabled with
    | true => exact hfs
    | false =>
      have := hI.createPath pp fs.dir hfs
      simp only [Bool.not_false, if_true]
      rcases hc : fs.dir.CreatePath pp with ⟨d1, r⟩
      rw [hc] at this
      cases r <;> exact this
  rcases hrp : fs.resolveParent pp with ⟨root1, r⟩
  rw [hrp] at hroot
  cases r with
  | panic => exact hroot
  | err e => exact hroot
  | ok n =>
    obtain ⟨hp, hfind, _, _⟩ := resolveParent_ok fs pp root1 n hrp
    cases n with
    | File fl => exact hroot
    | Dir P =>
      dsimp only
      have hdesc := dir.descend_of_Find pp root1 P hp hfind
      have hP := hI.descend pp root1 P hroot hdesc
      rcases hl : syncMap.Load P.nodes f with _ | child
      · exact hI.writeBack pp root1 P _ hroot hdesc
          (hI.storeNew P f _ hP hl rfl (fun c hc => by cases hc)) rfl
      · cases child with
        | Dir c => exact hroot
        | File fl =>
          exact hI.writeBack pp root1 P _ hroot hdesc (hI.append P f fl data hP hl) rfl

/-- A property that the child-map operations keep holds in every state that
calls of the `FileSystem`, `Dir` and `File` operations can build. -/
theorem TreeInvariant.of_constructible {Inv : dir → Prop} (hI : TreeInvariant Inv)
    (fs : fileSystem) (h : Constructible fs) : Inv fs.dir := by
  induction h with
  | new opts => exact hI.empty _ _
  | mkdir fs path _ ih => exact hI.mkdir fs path ih
  | writeFile fs path data _ ih => exact hI.writeFile fs path data ih
  | createDir fs loc D name _ hD ih =>
    exact hI.writeBack loc fs.dir D _ ih hD (hI.createDir D name (hI.descend loc _ D ih hD))
      (dir.CreateDir_keeps D name).2.1
  | createFile fs loc D name data _ hD ih =>
    exact hI.writeBack loc fs.dir D _ ih hD
      (hI.createFile D name data (hI.descend loc _ D ih hD))
      (dir.CreateFile_keeps D name data).2.1
  | createPath fs loc D path _ hD ih =>
    exact hI.writeBack loc fs.dir D _ ih hD (hI.createPath path D (hI.descend loc _ D ih hD))
      (dir.CreatePath_opt_name D path).2
  | append fs loc D name f data _ hD hl ih =>
    exact hI.writeBack loc fs.dir D _ ih hD
      (hI.append D name f data (hI.descend loc _ D ih hD) hl) rfl

theorem Reachable.toConstructible (fs : fileSystem) (h : Reachable fs) : Constructible fs := by
  induction h with
  | new opts => exact .new opts
  | mkdir fs path _ ih => exact .mkdir fs path ih
  | writeFile fs path data _ ih => exact .writeFile fs path data ih

theorem WellNamed_treeInvariant : TreeInvariant dir.WellNamed where
  empty := dir.WellNamed_empty
  child := fun d c k hd hl => (dir.WellNamed_child d c k hd hl).2
  storeNew := fun d k v hd _ hname hv => dir.WellNamed_store d k v hd hname hv
  storeSame := fun d k v0 v hd hl hname hv =>
    dir.WellNamed_store d k v hd
      (hname.trans (WellNamedNodes_load d.nodes k v0 ((dir.WellNamed_iff d).1 hd) hl).1) hv

theorem NoDupKeysNodes_load (ns : syncMap) (k : String) (c : dir)
    (h : NoDupKeysNodes ns) (hl : syncMap.Load ns k = some (.Dir c)) : c.NoDupKeys := by
  induction ns with
  | nil => simp [syncMap.Load] at hl
  | cons hd tl ih =>
    obtain ⟨k0, v0⟩ := hd
    by_cases hk : k0 = k
    · subst hk
      simp only [syncMap.Load, if_true, Option.some.injEq] at hl
      subst hl
      exact h.2.1
    · simp only [syncMap.Load, hk, if_false] at hl
      cases v0 with
      | File f => exact ih h.2 hl
      | Dir c0 => exact ih h.2.2 hl

theorem NoDupKeysNodes_cons (k : String) (v : Node) (tl : syncMap)
    (hk : syncMap.Load tl k = none) (hv : ∀ c, v = .Dir c → c.NoDupKeys)
    (htl : NoDupKeysNodes tl) : NoDupKeysNodes ((k, v) :: tl) := by
  cases v with
  | File f => exact ⟨hk, htl⟩
  | Dir c => exact ⟨hk, hv c rfl, htl⟩

theorem NoDupKeysNodes_tail (k : String) (v : Node) (tl : syncMap)
    (h : NoDupKeysNodes ((k, v) :: tl)) :
    syncMap.Load tl k = none ∧ (∀ c, v = .Dir c → c.NoDupKeys) ∧ NoDupKeysNodes tl := by
  cases v with
  | File f => exact ⟨h.1, fun c hc => (by cases hc), h.2⟩
  | Dir c => exact ⟨h.1, fun c2 hc => (by cases hc; exact h.2.1), h.2.2⟩

theorem NoDupKeysNodes_store (ns : syncMap) (k : String) (v : Node)
    (h : NoDupKeysNodes ns) (hv : ∀ c, v = .Dir c → c.NoDupKeys) :
    NoDupKeysNodes (syncMap.Store ns k v) := by
  induction ns with
  | nil => exact NoDupKeysNodes_cons k v [] rfl hv trivial
  | cons hd tl ih =>
    obtain ⟨k0, v0⟩ := hd
    obtain ⟨h1, h2, h3⟩ := NoDupKeysNodes_tail k0 v0 tl h
    by_cases hk : k0 = k
    · subst hk
      simp only [syncMap.Store, if_true]
      exact NoDupKeysNodes_cons k0 v tl h1 hv h3
    · simp only [syncMap.Store, hk, if_false]
      exact NoDupKeysNodes_cons k0 v0 _
        (by rw [syncMap.Load_Store_other tl k k0 v (Ne.symm hk)]; exact h1) h2 (ih h3)

theorem dir.NoDupKeys_iff (d : dir) : d.NoDupKeys ↔ NoDupKeysNodes d.nodes := by
  cases d; simp [dir.NoDupKeys, dir.nodes]

theorem NoDupKeys_treeInvariant : TreeInvariant dir.NoDupKeys where
  empty := fun o n => by simp [dir.NoDupKeys, NoDupKeysNodes]
  child := fun d c k hd hl => NoDupKeysNodes_load d.nodes k c ((dir.NoDupKeys_iff d).1 hd) hl
  storeNew := fun d k v hd _ _ hv =>
    (dir.NoDupKeys_iff _).2 (NoDupKeysNodes_store d.nodes k v ((dir.NoDupKeys_iff d).1 hd) hv)
  storeSame := fun d k _ v hd _ _ hv =>
    (dir.NoDupKeys_iff _).2 (NoDupKeysNodes_store d.nodes k v ((dir.NoDupKeys_iff d).1 hd) hv)

/-- In every state that the operations can build, each child map holds each
key once. -/
theorem Constructible.noDupKeys (fs : fileSystem) (h : Constructible fs) :
    fs.dir.NoDupKeys :=
  NoDupKeys_treeInvariant.of_constructible fs h

/-- In every state that the operations can build, each child is stored under
its own name. -/
theorem Constructible.keysAreNames (fs : fileSystem) (h : Constructible fs) :
    fs.dir.WellNamed :=
  WellNamed_treeInvariant.of_constructible fs h

/-! ### `PrettyPrint`, the empty restrictive filesystem, and names -/

theorem goMap.get_set_same (m : goMap) (k : String) (v : Value) :
    goMap.get (goMap.set m k v) k = some v := by
  induction m with
  | nil => simp [goMap.set, goMap.get]
  | cons hd tl ih =>
    obtain ⟨k0, v0⟩ := hd
    by_cases h : k0 = k
    · simp [goMap.set, goMap.get, h]
    · simp [goMap.set, goMap.get, h, ih]

theorem goMap.get_set_other (m : goMap) (k k1 : String) (v : Value) (hne : k ≠ k1) :
    goMap.get (goMap.set m k v) k1 = goMap.get m k1 := by
  induction m with
  | nil => simp [goMap.set, goMap.get, hne]
  | cons hd tl ih =>
    obtain ⟨k0, v0⟩ := hd
    by_cases h : k0 = k
    · subst h
      simp [goMap.set, goMap.get, hne]
    · by_cases h1 : k0 = k1
      · subst h1
        simp [goMap.set, goMap.get, h]
      · simp [goMap.set, goMap.get, h, h1, ih]

theorem syncMap.RangePrettyPrint_cons (key : String) (v : Node) (rest : syncMap) (m : goMap) :
    syncMap.RangePrettyPrint ((key, v) :: rest) m
      = syncMap.RangePrettyPrint rest (goMap.set m key v.printed) := by
  cases v with
  | File f => simp [syncMap.RangePrettyPrint, NodeOf.printed]
  | Dir c => simp [syncMap.RangePrettyPrint, NodeOf.printed]

theorem syncMap.RangePrettyPrint_get (ns : syncMap) : ∀ (m : goMap) (k : String),
    NoDupKeysNodes ns →
    goMap.get (syncMap.RangePrettyPrint ns m) k
      = match syncMap.Load ns k with
        | some v => some v.printed
        | none => goMap.get m k := by
  induction ns with
  | nil => intro m k _; simp [syncMap.RangePrettyPrint, syncMap.Load]
  | cons hd tl ih =>
    intro m k h
    obtain ⟨k0, v0⟩ := hd
    obtain ⟨h1, _, h3⟩ := NoDupKeysNodes_tail k0 v0 tl h
    rw [syncMap.RangePrettyPrint_cons, ih _ k h3]
    by_cases hk : k0 = k
    · subst hk
      simp [syncMap.Load, h1, goMap.get_set_same]
    · simp only [syncMap.Load, hk, if_false]
      cases syncMap.Load tl k with
      | none => simp [goMap.get_set_other m k0 k _ hk]
      | some v => rfl

theorem dir.PrettyPrint_get (d : dir) (h : d.NoDupKeys) (k : String) :
    goMap.get d.PrettyPrint k = (syncMap.Load d.nodes k).map NodeOf.printed := by
  cases d with
  | mk o n ns =>
    simp only [dir.PrettyPrint, dir.nodes]
    rw [syncMap.RangePrettyPrint_get ns [] k h]
    cases syncMap.Load ns k <;> simp [goMap.get]

theorem restrictive_empty_Find (pp : List String) :
    (NewFileSystem [DisablePFlag]).dir.Find pp = .panic ∨
    (NewFileSystem [DisablePFlag]).dir.Find pp = .err (.pathNotFoundError pp) := by
  cases pp with
  | nil => left; rfl
  | cons a rest => right; exact dir.Find_none _ a rest rfl

theorem restrictive_empty_Mkdir (path : String) :
    (NewFileSystem [DisablePFlag]).Mkdir path = (NewFileSystem [DisablePFlag], .panic) ∨
    ∃ q, (NewFileSystem [DisablePFlag]).Mkdir path
      = (NewFileSystem [DisablePFlag], .err (.pathNotFoundError q)) := by
  obtain ⟨pp, f, hs, _, _⟩ := segments_shape path
  rw [Mkdir_unfold_restrictive (NewFileSystem [DisablePFlag]) path pp f hs rfl]
  rcases restrictive_empty_Find pp with h | h
  · left; rw [h]
  · right; exact ⟨pp, by rw [h]⟩

theorem restrictive_empty_WriteFile (path data : String) :
    (NewFileSystem [DisablePFlag]).WriteFile path data
      = (NewFileSystem [DisablePFlag], .panic) ∨
    ∃ q, (NewFileSystem [DisablePFlag]).WriteFile path data
      = (NewFileSystem [DisablePFlag], .err (.pathNotFoundError q)) := by
  obtain ⟨pp, f, hs, _, _⟩ := segments_shape path
  rw [WriteFile_unfold (NewFileSystem [DisablePFlag]) path data pp f hs]
  have hrp : (NewFileSystem [DisablePFlag]).resolveParent pp
      = ((NewFileSystem [DisablePFlag]).dir, (NewFileSystem [DisablePFlag]).dir.Find pp) := rfl
  rw [hrp]
  rcases restrictive_empty_Find pp with h | h
  · left; rw [h]
  · right; exact ⟨pp, by rw [h]⟩

theorem dir.Find_name (p : List String) : ∀ (d : dir) (n : Node), d.WellNamed →
    d.Find p = .ok n → p.getLast? = some n.Name := by
  induction p with
  | nil => intro d n _ h; cases h
  | cons s rest ih =>
    intro d n hwn h
    by_cases hr : rest = []
    · subst hr
      have hl := dir.Find_single_ok d s n h
      have := (WellNamedNodes_load d.nodes s n ((dir.WellNamed_iff d).1 hwn) hl).1
      simp [this]
    · obtain ⟨c, hl, hc⟩ := dir.Find_cons_ok_dir d s rest n hr h
      have := ih c n (dir.WellNamed_child d c s hwn hl).2 hc
      cases rest with
      | nil => exact absurd rfl hr
      | cons x xs => rw [List.getLast?_cons_cons]; exact this

theorem Mkdir_root_name (fs : fileSystem) (path : String) :
    (fs.Mkdir path).1.dir.name = fs.dir.name := by
  cases hflag : fs.dir.opt.pFlagDisabled with
  | false =>
    rw [Mkdir_unfold_permissive fs path hflag]
    have := (dir.CreatePath_opt_name fs.dir (strings.Split path '/')).2
    rcases hc : fs.dir.CreatePath (strings.Split path '/') with ⟨d1, r⟩
    rw [hc] at this
    cases r <;> exact this
  | true =>
    obtain ⟨pp, f, hs, _, _⟩ := segments_shape path
    rw [Mkdir_unfold_restrictive fs path pp f hs hflag]
    cases hf : fs.dir.Find pp with
    | panic => rfl
    | err e => rfl
    | ok n =>
      cases n with
      | File fl => rfl
      | Dir P =>
        dsimp only
        have hp : pp ≠ [] := by
          intro he; subst he; cases hf
        rcases hcd : P.CreateDir f with ⟨P1, r⟩
        cases r <;> exact dir.writeBack_name pp fs.dir P1 hp

theorem WriteFile_root_name (fs : fileSystem) (path data : String) :
    (fs.WriteFile path data).1.dir.name = fs.dir.name := by
  obtain ⟨pp, f, hs, _, _⟩ := segments_shape path
  rw [WriteFile_unfold fs path data pp f hs]
  have hroot : (fs.resolveParent pp).1.name = fs.dir.name := by
    unfold fileSystem.resolveParent
    cases hflag : fs.dir.opt.pFlagDisabled with
    | true => rfl
    | false =>
      have := (dir.CreatePath_opt_name fs.dir pp).2
      simp only [Bool.not_false, if_true]
      rcases hc : fs.dir.CreatePath pp with ⟨d1, r⟩
      rw [hc] at this
      cases r <;> exact this
  rcases hrp : fs.resolveParent pp with ⟨root1, r⟩
  rw [hrp] at hroot
  cases r with
  | panic => exact hroot
  | err e => exact hroot
  | ok n =>
    obtain ⟨hp, _, _, _⟩ := resolveParent_ok fs pp root1 n hrp
    cases n with
    | File fl => exact hroot
    | Dir P =>
      dsimp only
      rcases hl : syncMap.Load P.nodes f with _ | child
      · exact (dir.writeBack_name pp root1 _ hp).trans hroot
      · cases child with
        | Dir c => exact hroot
        | File fl => exact (dir.writeBack_name pp root1 _ hp).trans hroot

theorem Constructible.root_name (fs : fileSystem) (h : Constructible fs) :
    fs.dir.name = "" := by
  induction h with
  | new opts => rfl
  | mkdir fs path _ ih => exact (Mkdir_root_name fs path).trans ih
  | writeFile fs path data _ ih => exact (WriteFile_root_name fs path data).trans ih
  | createDir fs loc D name _ hD ih =>
    exact (dir.writeBack_name_descend loc fs.dir D _ hD (dir.CreateDir_keeps D name).2.1).trans ih
  | createFile fs loc D name data _ hD ih =>
    exact (dir.writeBack_name_descend loc fs.dir D _ hD
      (dir.CreateFile_keeps D name data).2.1).trans ih
  | createPath fs loc D path _ hD ih =>
    exact (dir.writeBack_name_descend loc fs.dir D _ hD
      (dir.CreatePath_opt_name D path).2).trans ih
  | append fs loc D name f data _ hD hl ih =>
    exact (dir.writeBack_name_descend loc fs.dir D
      (D.withNodes (syncMap.Store D.nodes name (.File (f.Append data)))) hD rfl).trans ih

/-! ## The properties -/

/-- C1. Write/read round trip: in any state, for a path that resolves to no node,
if the calls `WriteFile(p, d1)`, ..., `WriteFile(p, dn)` (n ≥ 1) made in that order
with nothing in between all return without error, then `ReadFile(p)` returns,
without error, exactly `d1 ++ d2 ++ ... ++ dn`. -/
theorem writeFile_readFile_roundtrip (fs fs' : fileSystem) (p : String) (ds : List String)
    (hds : ds ≠ [])
    (hnew : ∀ n, fs.dir.Find (strings.Split p '/') ≠ .ok n)
    (hw : fs.writeAll p ds = some fs') :
    fs'.ReadFile p = .ok (String.join ds) := by
  obtain ⟨pp, f, hs, _, _⟩ := segments_shape p
  cases ds with
  | nil => exact absurd rfl hds
  | cons d ds =>
    rw [hs] at hnew
    simp only [fileSystem.writeAll] at hw
    rcases hw1 : fs.WriteFile p d with ⟨fs1, r⟩
    rw [hw1] at hw
    cases r with
    | panic => simp at hw
    | err e => simp at hw
    | ok u =>
      simp only at hw
      obtain ⟨hp, D, hf, hl⟩ := WriteFile_first fs fs1 p d pp f hs hnew hw1
      rw [writeAll_next p pp f hs hp ds fs1 fs' D _ hf hl hw, string_join_cons]

theorem writeFile_readFile_roundtrip_witness :
    (∀ n, (NewFileSystem []).dir.Find (strings.Split "a/f" '/') ≠ .ok n) ∧
    (NewFileSystem []).writeAll "a/f" ["x", "yz"]
      = some ⟨dir.mk ⟨false⟩ "" [("a", .Dir (dir.mk ⟨false⟩ "a" [("f", .File ⟨"xyz", "f"⟩)]))]⟩ ∧
    fileSystem.ReadFile
      ⟨dir.mk ⟨false⟩ "" [("a", .Dir (dir.mk ⟨false⟩ "a" [("f", .File ⟨"xyz", "f"⟩)]))]⟩ "a/f"
      = .ok (String.join ["x", "yz"]) :=
  ⟨fun n => dir.Find_empty _ _ _ n, rfl,
    writeFile_readFile_roundtrip (NewFileSystem []) _ "a/f" ["x", "yz"] (by decide)
      (fun n => dir.Find_empty _ _ _ n) rfl⟩

/-- C2. On a new permissive filesystem `WriteFile("f", "a")` does not return: the
ancestor list of the single segment `f` is empty and `CreatePath` indexes
`path[0]` on it.  The tree is left empty. -/
theorem writeFile_top_level_file_panics :
    (NewFileSystem []).WriteFile "f" "a" = (NewFileSystem [], .panic) := by
  rfl

/-- C3. A path of one segment hands an empty segment list to `CreatePath`
(permissive `WriteFile`) or to `Find` (restrictive `WriteFile` and `Mkdir`),
and the call panics on `path[0]`. -/
theorem single_segment_path_panics :
    (strings.Split "f" '/').take ((strings.Split "f" '/').length - 1) = [] ∧
    ((NewFileSystem []).WriteFile "f" "a").2 = .panic ∧
    ((NewFileSystem [DisablePFlag]).WriteFile "f" "a").2 = .panic ∧
    ((NewFileSystem [DisablePFlag]).Mkdir "a").2 = .panic := by
  decide

/-- C4. One namespace per directory: when `d` already has a child named `n`, of
either kind, `CreateDir(n)` and `CreateFile(n, data)` both return their
already-exists error and leave `d` (its child map included) as it was. -/
theorem create_existing_name_fails (d : dir) (n data : String) (child : Node)
    (h : d.GetChild n = .ok child) :
    d.CreateDir n = (d, .err (.errorString (n ++ " dir already exists"))) ∧
    d.CreateFile n data = (d, .err (.errorString ("file already exists: " ++ n))) := by
  have hc : d.HasChild n = true := by
    unfold dir.GetChild at h
    unfold dir.HasChild
    cases hl : syncMap.Load d.nodes n with
    | none => rw [hl] at h; cases h
    | some c => rfl
  simp [dir.CreateDir, dir.CreateFile, hc]

theorem create_existing_name_fails_witness :
    (dir.mk ⟨false⟩ "" [("x", .File ⟨"data", "x"⟩), ("y", .Dir (dir.mk ⟨false⟩ "y" []))]).GetChild "x"
      = .ok (.File ⟨"data", "x"⟩) ∧
    (dir.mk ⟨false⟩ "" [("x", .File ⟨"data", "x"⟩), ("y", .Dir (dir.mk ⟨false⟩ "y" []))]).CreateDir "x"
      = (dir.mk ⟨false⟩ "" [("x", .File ⟨"data", "x"⟩), ("y", .Dir (dir.mk ⟨false⟩ "y" []))],
          .err (.errorString "x dir already exists")) ∧
    (dir.mk ⟨false⟩ "" [("x", .File ⟨"data", "x"⟩), ("y", .Dir (dir.mk ⟨false⟩ "y" []))]).CreateFile "x" "new"
      = (dir.mk ⟨false⟩ "" [("x", .File ⟨"data", "x"⟩), ("y", .Dir (dir.mk ⟨false⟩ "y" []))],
          .err (.errorString "file already exists: x")) :=
  ⟨rfl, create_existing_name_fails _ "x" "new" (.File ⟨"data", "x"⟩) rfl⟩

/-- C5. Successful creation: when `d` has no child named `n`, `CreateDir(n)`
returns a new directory named `n`, without children and with the options of
`d`; afterwards `HasChild(n)` holds and `GetChild(n)` is that directory.
`CreateFile(n, data)` succeeds and afterwards `GetChild(n)` is a file named `n`
with content `data`.  In both cases every other child of `d`, and the name and
options of `d`, are unchanged. -/
theorem create_fresh_name_succeeds (d : dir) (n data : String) (h : d.HasChild n = false) :
    (∃ new, (d.CreateDir n).2 = .ok new ∧ new.Name = n ∧ new.nodes = [] ∧ new.opt = d.opt
      ∧ (d.CreateDir n).1.HasChild n = true
      ∧ (d.CreateDir n).1.GetChild n = .ok (.Dir new)) ∧
    (∀ m, m ≠ n → (d.CreateDir n).1.GetChild m = d.GetChild m) ∧
    (d.CreateDir n).1.Name = d.Name ∧ (d.CreateDir n).1.opt = d.opt ∧
    (d.CreateFile n data).2 = .ok () ∧
    (∃ f, (d.CreateFile n data).1.GetChild n = .ok (.File f) ∧ f.Name = n ∧ f.Data = data) ∧
    (∀ m, m ≠ n → (d.CreateFile n data).1.GetChild m = d.GetChild m) ∧
    (d.CreateFile n data).1.Name = d.Name ∧ (d.CreateFile n data).1.opt = d.opt := by
  have hcd : d.CreateDir n
      = (d.withNodes (syncMap.Store d.nodes n (.Dir (dir.mk d.opt n []))),
          .ok (dir.mk d.opt n [])) := by
    simp [dir.CreateDir, h]
  have hcf : d.CreateFile n data
      = (d.withNodes (syncMap.Store d.nodes n (.File ⟨data, n⟩)), .ok ()) := by
    simp [dir.CreateFile, h]
  rw [hcd, hcf]
  refine ⟨⟨dir.mk d.opt n [], rfl, rfl, rfl, rfl, ?_, ?_⟩, ?_, rfl, rfl, rfl,
    ⟨⟨data, n⟩, ?_, rfl, rfl⟩, ?_, rfl, rfl⟩
  · simp [dir.HasChild, syncMap.Load_Store_same]
  · simp [dir.GetChild, syncMap.Load_Store_same]
  · intro m hm
    simp [dir.GetChild, syncMap.Load_Store_other _ n m _ (Ne.symm hm)]
  · simp [dir.GetChild, syncMap.Load_Store_same]
  · intro m hm
    simp [dir.GetChild, syncMap.Load_Store_other _ n m _ (Ne.symm hm)]

theorem create_fresh_name_succeeds_witness :
    (dir.mk ⟨false⟩ "" [("x", .File ⟨"data", "x"⟩)]).HasChild "y" = false ∧
    (dir.mk ⟨false⟩ "" [("x", .File ⟨"data", "x"⟩)]).CreateDir "y"
      = (dir.mk ⟨false⟩ "" [("x", .File ⟨"data", "x"⟩), ("y", .Dir (dir.mk ⟨false⟩ "y" []))],
          .ok (dir.mk ⟨false⟩ "y" [])) ∧
    (dir.mk ⟨false⟩ "" [("x", .File ⟨"data", "x"⟩)]).CreateFile "y" "new"
      = (dir.mk ⟨false⟩ "" [("x", .File ⟨"data", "x"⟩), ("y", .File ⟨"new", "y"⟩)], .ok ()) ∧
    ((dir.mk ⟨false⟩ "" [("x", .File ⟨"data", "x"⟩)]).CreateDir "y").1.HasChild "y" = true :=
  ⟨rfl, rfl, rfl,
    (create_fresh_name_succeeds (dir.mk ⟨false⟩ "" [("x", .File ⟨"data", "x"⟩)]) "y" "new"
      rfl).1.elim fun _ hnew => hnew.2.2.2.2.1⟩

/-- C6. Restrictive mode never auto-creates: in a filesystem with `pFlagDisabled`
set, for a path of at least two segments whose ancestor list (all segments but
the last) has an absent segment `s` (the segments `pre` before it lead through
directories to a directory without a child `s`), `Mkdir(path)` and
`WriteFile(path, data)` return an error that matches the `PathNotFoundError`
sentinel, and the filesystem is unchanged. -/
theorem restrictive_missing_ancestor_not_found (fs : fileSystem) (path data : String)
    (pre : List String) (s : String) (suf : List String) (D : dir)
    (hflag : fs.dir.opt.pFlagDisabled = true)
    (hpp : (strings.Split path '/').dropLast = pre ++ s :: suf)
    (hpre : fs.dir.descend pre = some D) (habs : D.HasChild s = false) :
    ∃ e, fs.Mkdir path = (fs, .err e) ∧ fs.WriteFile path data = (fs, .err e)
      ∧ errors.Is e PathNotFoundError = true := by
  obtain ⟨pp, f, hs, _, _⟩ := segments_shape path
  have hpp2 : pp = pre ++ s :: suf := by
    rw [hs, List.dropLast_concat] at hpp
    exact hpp
  have hfind := dir.Find_absent pre fs.dir D s suf hpre habs
  rw [← hpp2] at hfind
  refine ⟨.pathNotFoundError (s :: suf), ?_, ?_, rfl⟩
  · rw [Mkdir_unfold_restrictive fs path pp f hs hflag, hfind]
  · rw [WriteFile_unfold fs path data pp f hs]
    simp [fileSystem.resolveParent, hflag, hfind]

theorem restrictive_missing_ancestor_not_found_witness :
    (NewFileSystem [DisablePFlag]).dir.opt.pFlagDisabled = true ∧
    (strings.Split "a/b/c" '/').dropLast = [] ++ "a" :: ["b"] ∧
    (NewFileSystem [DisablePFlag]).dir.descend [] = some (NewFileSystem [DisablePFlag]).dir ∧
    (NewFileSystem [DisablePFlag]).dir.HasChild "a" = false ∧
    ∃ e, (NewFileSystem [DisablePFlag]).Mkdir "a/b/c" = (NewFileSystem [DisablePFlag], .err e)
      ∧ (NewFileSystem [DisablePFlag]).WriteFile "a/b/c" "x"
          = (NewFileSystem [DisablePFlag], .err e)
      ∧ errors.Is e PathNotFoundError = true :=
  ⟨rfl, by decide, rfl, rfl,
    restrictive_missing_ancestor_not_found (NewFileSystem [DisablePFlag]) "a/b/c" "x"
      [] "a" ["b"] (NewFileSystem [DisablePFlag]).dir rfl (by decide) rfl rfl⟩

/-- C7. Permissive `Mkdir` creates the whole chain: in permissive mode, in a tree
whose children are all stored under their own names (as in every state built
from `NewFileSystem`), for a path with segments `s1..sn` of which no leading
part `s1..si` resolves to a file, `Mkdir(path)` succeeds; afterwards every
leading part `s1..si`, `i = 1..n`, resolves through `Find` to a directory named
`si`, and every segment list that resolved before still resolves to the same
node (same kind, name, options and file content). -/
theorem permissive_mkdir_creates_chain (fs : fileSystem) (path : String)
    (hflag : fs.dir.opt.pFlagDisabled = false) (hwn : fs.dir.WellNamed)
    (hno : ∀ i f, fs.dir.Find ((strings.Split path '/').take i) ≠ .ok (.File f)) :
    ∃ fs1, fs.Mkdir path = (fs1, .ok ()) ∧
      (∀ i, i < (strings.Split path '/').length →
        ∃ D, fs1.dir.Find ((strings.Split path '/').take (i + 1)) = .ok (.Dir D)
          ∧ (strings.Split path '/')[i]? = some D.Name) ∧
      (∀ q n, fs.dir.Find q = .ok n → ∃ n1, fs1.dir.Find q = .ok n1 ∧ n.sameNode n1) := by
  obtain ⟨d1, r, hc⟩ :=
    dir.CreatePath_succeeds (strings.Split path '/') fs.dir (strings.Split_ne_nil path '/') hno
  refine ⟨⟨d1⟩, ?_, ?_, ?_⟩
  · rw [Mkdir_unfold_permissive fs path hflag, hc]
  · exact dir.CreatePath_chain _ fs.dir d1 r hwn hc
  · intro q n hq
    have := dir.CreatePath_preserves_Find (strings.Split path '/') fs.dir q n hq
    rw [hc] at this
    exact this

theorem permissive_mkdir_creates_chain_witness :
    (NewFileSystem []).dir.opt.pFlagDisabled = false ∧ (NewFileSystem []).dir.WellNamed ∧
    (∀ i f, (NewFileSystem []).dir.Find ((strings.Split "a/b/c" '/').take i) ≠ .ok (.File f)) ∧
    (NewFileSystem []).Mkdir "a/b/c"
      = (⟨dir.mk ⟨false⟩ "" [("a", .Dir (dir.mk ⟨false⟩ "a"
            [("b", .Dir (dir.mk ⟨false⟩ "b" [("c", .Dir (dir.mk ⟨false⟩ "c" []))]))]))]⟩,
          .ok ()) ∧
    ∃ fs1, (NewFileSystem []).Mkdir "a/b/c" = (fs1, .ok ()) ∧
      (∀ i, i < (strings.Split "a/b/c" '/').length →
        ∃ D, fs1.dir.Find ((strings.Split "a/b/c" '/').take (i + 1)) = .ok (.Dir D)
          ∧ (strings.Split "a/b/c" '/')[i]? = some D.Name) ∧
      (∀ q n, (NewFileSystem []).dir.Find q = .ok n →
        ∃ n1, fs1.dir.Find q = .ok n1 ∧ n.sameNode n1) :=
  ⟨rfl, by simp [NewFileSystem, dir.WellNamed, WellNamedNodes],
    fun _ _ => dir.Find_empty _ _ _ _, rfl,
    permissive_mkdir_creates_chain (NewFileSystem []) "a/b/c" rfl
      (by simp [NewFileSystem, dir.WellNamed, WellNamedNodes])
      (fun _ _ => dir.Find_empty _ _ _ _)⟩

/-- C8. A file in the middle of a path is an invalid-path error, not a not-found
error: when the segments `pre ++ [s]` resolve to a file and at least one more
segment follows, `Find` returns the error `path is invalid: ...`, which does
not match the `PathNotFoundError` sentinel. -/
theorem find_through_file_is_invalid_path (d : dir) (pre : List String) (s : String)
    (suf : List String) (f : file) (hsuf : suf ≠ [])
    (h : d.Find (pre ++ [s]) = .ok (.File f)) :
    d.Find (pre ++ s :: suf)
        = .err (.errorString ("path is invalid: " ++ fmt.sliceString (s :: suf))) ∧
      errors.Is (.errorString ("path is invalid: " ++ fmt.sliceString (s :: suf)))
        PathNotFoundError = false := by
  refine ⟨?_, rfl⟩
  induction pre generalizing d with
  | nil =>
    exact dir.Find_file d s suf f (dir.Find_single_ok d s _ h) hsuf
  | cons a pre ih =>
    obtain ⟨c, hl, hc⟩ := dir.Find_cons_ok_dir d a (pre ++ [s]) _ (by simp) h
    rw [List.cons_append, dir.Find_dir d a (pre ++ s :: suf) c hl (by simp)]
    exact ih c hc

theorem find_through_file_is_invalid_path_witness :
    (dir.mk ⟨false⟩ "" [("a", .Dir (dir.mk ⟨false⟩ "a" [("f", .File ⟨"x", "f"⟩)]))]).Find
        (["a"] ++ ["f"]) = .ok (.File ⟨"x", "f"⟩) ∧
    (dir.mk ⟨false⟩ "" [("a", .Dir (dir.mk ⟨false⟩ "a" [("f", .File ⟨"x", "f"⟩)]))]).Find
        (["a"] ++ "f" :: ["g", "h"]) = .err (.errorString "path is invalid: [f g h]") :=
  ⟨rfl, (find_through_file_is_invalid_path
      (dir.mk ⟨false⟩ "" [("a", .Dir (dir.mk ⟨false⟩ "a" [("f", .File ⟨"x", "f"⟩)]))])
      ["a"] "f" ["g", "h"] ⟨"x", "f"⟩ (by decide) rfl).1⟩

/-- C9. In a filesystem holding the empty directories `a` and `b`, the lookup of
`a/b` fails at the second segment and the not-found error carries only the
remaining segments `[b]`, not the attempted path `[a, b]`: `ReadFile("a/b")`
reports `path 'b' does not exist`, although `b` does exist. -/
theorem find_not_found_carries_suffix :
    (((NewFileSystem []).Mkdir "a").1.Mkdir "b").1.dir.Find ["a", "b"]
      = .err (.pathNotFoundError ["b"]) ∧
    (((NewFileSystem []).Mkdir "a").1.Mkdir "b").1.ReadFile "a/b"
      = .err (.pathNotFoundError ["b"]) ∧
    (error.pathNotFoundError ["b"]).Error = "path 'b' does not exist" ∧
    (∃ n, (((NewFileSystem []).Mkdir "a").1.Mkdir "b").1.dir.Find ["b"] = .ok n) :=
  ⟨rfl, rfl, by decide, ⟨_, rfl⟩⟩

/-- C10. `CreatePath` is idempotent: if `d.CreatePath(p)` succeeds with directory
`r`, leaving `d1`, then the same call on `d1` succeeds with `r` again and leaves
`d1` exactly as it was.  More generally, on any directory in which all
segments of a list already exist as directories, `CreatePath` succeeds, returns
the directory they lead to and changes nothing. -/
theorem createPath_idempotent (d d1 r : dir) (p : List String)
    (h : d.CreatePath p = (d1, .ok r)) :
    d1.CreatePath p = (d1, .ok r) ∧
    ∀ (e r1 : dir) (q : List String), e.Find q = .ok (.Dir r1) → e.CreatePath q = (e, .ok r1) :=
  ⟨dir.CreatePath_of_Find p d1 r (dir.Find_CreatePath p d d1 r h),
    fun e r1 q hq => dir.CreatePath_of_Find q e r1 hq⟩

theorem createPath_idempotent_witness :
    (dir.mk ⟨false⟩ "" [("a", .Dir (dir.mk ⟨false⟩ "a" []))]).CreatePath ["a", "b"]
      = (dir.mk ⟨false⟩ "" [("a", .Dir (dir.mk ⟨false⟩ "a" [("b", .Dir (dir.mk ⟨false⟩ "b" []))]))],
          .ok (dir.mk ⟨false⟩ "b" [])) ∧
    (dir.mk ⟨false⟩ "" [("a", .Dir (dir.mk ⟨false⟩ "a" [("b", .Dir (dir.mk ⟨false⟩ "b" []))]))]).CreatePath
        ["a", "b"]
      = (dir.mk ⟨false⟩ "" [("a", .Dir (dir.mk ⟨false⟩ "a" [("b", .Dir (dir.mk ⟨false⟩ "b" []))]))],
          .ok (dir.mk ⟨false⟩ "b" [])) :=
  ⟨rfl, (createPath_idempotent (dir.mk ⟨false⟩ "" [("a", .Dir (dir.mk ⟨false⟩ "a" []))])
      _ _ ["a", "b"] rfl).1⟩

/-- C11. `Find` is the exact, non-creating lookup: `d.Find(p)` succeeds with a
node `x` exactly when looking up the segments one after the other by exact
child name, through directories only before the last segment, reaches `x`
(`dir.lookupChain`, worded after the specification); the terminal node is
returned whatever its kind.  `Find` and `ReadFile` call no `Store`: in the
embedding they are functions of the tree and return no new tree. -/
theorem find_is_exact_lookup (d : dir) (p : List String) (x : Node) :
    (d.Find p = .ok x ↔ d.lookupChain p = some x) ∧
    (∀ s child, d.GetChild s = .ok child → d.Find [s] = .ok child) := by
  refine ⟨dir.Find_iff_lookupChain p d x, ?_⟩
  intro s child h
  cases hl : syncMap.Load d.nodes s with
  | none => simp [dir.GetChild, hl] at h
  | some c =>
    simp only [dir.GetChild, hl, Res.ok.injEq] at h
    subst h
    exact dir.Find_single d s c hl

theorem find_is_exact_lookup_witness :
    (dir.mk ⟨false⟩ "" [("a", .Dir (dir.mk ⟨false⟩ "a" [("f", .File ⟨"x", "f"⟩)]))]).lookupChain
        ["a", "f"] = some (.File ⟨"x", "f"⟩) ∧
    (dir.mk ⟨false⟩ "" [("a", .Dir (dir.mk ⟨false⟩ "a" [("f", .File ⟨"x", "f"⟩)]))]).Find
        ["a", "f"] = .ok (.File ⟨"x", "f"⟩) ∧
    (dir.mk ⟨false⟩ "" [("a", .Dir (dir.mk ⟨false⟩ "a" [("f", .File ⟨"x", "f"⟩)]))]).Find
        ["a"] = .ok (.Dir (dir.mk ⟨false⟩ "a" [("f", .File ⟨"x", "f"⟩)])) :=
  ⟨rfl,
    (find_is_exact_lookup
      (dir.mk ⟨false⟩ "" [("a", .Dir (dir.mk ⟨false⟩ "a" [("f", .File ⟨"x", "f"⟩)]))])
      ["a", "f"] (.File ⟨"x", "f"⟩)).1.2 rfl,
    (find_is_exact_lookup
      (dir.mk ⟨false⟩ "" [("a", .Dir (dir.mk ⟨false⟩ "a" [("f", .File ⟨"x", "f"⟩)]))])
      [] (.File ⟨"x", "f"⟩)).2 "a" _ rfl⟩

/-- C12. `PrettyPrint` is a faithful structural snapshot: for a directory whose
child maps hold each key once (as every `sync.Map` does, and as in every state
the operations can build), `d.PrettyPrint()` has an entry for a key exactly when
`d` has a child of that name, a file child being mapped to its `Data()` and a
directory child to its own `PrettyPrint()`.  An empty filesystem gives the empty
map, and a new permissive filesystem after `WriteFile("a/b", "x")` gives
`{a: {b: "x"}}`. -/
theorem prettyPrint_is_faithful_snapshot (d : dir) (h : d.NoDupKeys) :
    (∀ k, goMap.get d.PrettyPrint k = (syncMap.Load d.nodes k).map NodeOf.printed) ∧
    (∀ k, (goMap.get d.PrettyPrint k).isSome = d.HasChild k) ∧
    (∀ k f, d.GetChild k = .ok (.File f) → goMap.get d.PrettyPrint k = some (.str f.Data)) ∧
    (∀ k c, d.GetChild k = .ok (.Dir c) →
      goMap.get d.PrettyPrint k = some (.obj c.PrettyPrint)) ∧
    (∀ opts, (NewFileSystem opts).dir.PrettyPrint = []) ∧
    ((NewFileSystem []).WriteFile "a/b" "x").1.dir.PrettyPrint
      = [("a", .obj [("b", .str "x")])] := by
  have hget := dir.PrettyPrint_get d h
  refine ⟨hget, ?_, ?_, ?_, fun _ => rfl, rfl⟩
  · intro k
    rw [hget k]
    unfold dir.HasChild
    cases syncMap.Load d.nodes k <;> rfl
  · intro k f hk
    rw [hget k]
    unfold dir.GetChild at hk
    cases hl : syncMap.Load d.nodes k with
    | none => rw [hl] at hk; cases hk
    | some v => rw [hl] at hk; cases hk; rfl
  · intro k c hk
    rw [hget k]
    unfold dir.GetChild at hk
    cases hl : syncMap.Load d.nodes k with
    | none => rw [hl] at hk; cases hk
    | some v => rw [hl] at hk; cases hk; rfl

theorem prettyPrint_is_faithful_snapshot_witness :
    (dir.mk ⟨false⟩ "" [("a", .Dir (dir.mk ⟨false⟩ "a" [("b", .File ⟨"x", "b"⟩)])),
        ("f", .File ⟨"y", "f"⟩)]).NoDupKeys ∧
    (dir.mk ⟨false⟩ "" [("a", .Dir (dir.mk ⟨false⟩ "a" [("b", .File ⟨"x", "b"⟩)])),
        ("f", .File ⟨"y", "f"⟩)]).PrettyPrint
      = [("a", .obj [("b", .str "x")]), ("f", .str "y")] ∧
    goMap.get (dir.mk ⟨false⟩ "" [("a", .Dir (dir.mk ⟨false⟩ "a" [("b", .File ⟨"x", "b"⟩)])),
        ("f", .File ⟨"y", "f"⟩)]).PrettyPrint "f" = some (.str "y") :=
  ⟨by simp [dir.NoDupKeys, NoDupKeysNodes, syncMap.Load], rfl,
    (prettyPrint_is_faithful_snapshot
      (dir.mk ⟨false⟩ "" [("a", .Dir (dir.mk ⟨false⟩ "a" [("b", .File ⟨"x", "b"⟩)])),
        ("f", .File ⟨"y", "f"⟩)])
      (by simp [dir.NoDupKeys, NoDupKeysNodes, syncMap.Load])).2.2.1 "f" ⟨"y", "f"⟩ rfl⟩

/-- C13. In the filesystem that holds the directory `a`, the path `a` resolves
to a directory and `ReadFile("a")` returns the error `error reading non-file: a`,
but `WriteFile("a", "x")` does not return: the ancestor list of the single
segment is empty and `CreatePath` indexes `path[0]` on it (in restrictive mode
`Find` does). -/
theorem writeFile_onto_top_level_dir_panics :
    ((NewFileSystem []).Mkdir "a").1.dir.Find (strings.Split "a" '/')
      = .ok (.Dir (dir.mk ⟨false⟩ "a" [])) ∧
    ((NewFileSystem []).Mkdir "a").1.ReadFile "a"
      = .err (.errorString "error reading non-file: a") ∧
    (((NewFileSystem []).Mkdir "a").1.WriteFile "a" "x").2 = .panic ∧
    (fileSystem.WriteFile ⟨dir.mk ⟨true⟩ "" [("a", .Dir (dir.mk ⟨true⟩ "a" []))]⟩ "a" "x").2
      = .panic :=
  ⟨rfl, rfl, rfl, rfl⟩

/-- C14. Restrictive `Mkdir` creates only the final segment: with `pFlagDisabled`
set and the ancestor segments resolving to a directory `P`, `Mkdir(path)`
succeeds exactly when `P` has no child named by the final segment `f`.  On
success the path resolves to a new empty directory named `f`, every segment
list that resolved before resolves to the same node, and no other segment list
resolves newly (one node was added).  When `P` has a child `f`, of either kind,
the error wraps `f dir already exists` and the filesystem is unchanged. -/
theorem restrictive_mkdir_creates_final_segment (fs : fileSystem) (path : String) (P : dir)
    (f : String) (hflag : fs.dir.opt.pFlagDisabled = true)
    (hlast : (strings.Split path '/').getLast? = some f)
    (hP : fs.dir.Find (strings.Split path '/').dropLast = .ok (.Dir P)) :
    ((fs.Mkdir path).2 = .ok () ↔ P.HasChild f = false) ∧
    (P.HasChild f = false →
      ∃ fs1, fs.Mkdir path = (fs1, .ok ()) ∧
        fs1.dir.Find (strings.Split path '/') = .ok (.Dir (dir.mk P.opt f [])) ∧
        (∀ q n, fs.dir.Find q = .ok n → ∃ n1, fs1.dir.Find q = .ok n1 ∧ n.sameNode n1) ∧
        (∀ q n1, fs1.dir.Find q = .ok n1 →
          q = strings.Split path '/' ∨ ∃ n, fs.dir.Find q = .ok n)) ∧
    (P.HasChild f = true →
      fs.Mkdir path
        = (fs, .err (.wrapError
            ("error adding child dir " ++ path ++ ": " ++ (f ++ " dir already exists"))
            (.errorString (f ++ " dir already exists"))))) := by
  obtain ⟨pp, f0, hs, _, _⟩ := segments_shape path
  rw [hs] at hlast hP ⊢
  rw [List.dropLast_concat] at hP
  have hl0 : (pp ++ [f0]).getLast? = some f0 := by simp
  rw [hl0, Option.some.injEq] at hlast
  subst hlast
  have hp : pp ≠ [] := by
    intro he; subst he; cases hP
  have hunf := Mkdir_unfold_restrictive fs path pp f0 hs hflag
  rw [hP] at hunf
  simp only at hunf
  have hyes : P.HasChild f0 = true →
      fs.Mkdir path
        = (fs, .err (.wrapError
            ("error adding child dir " ++ path ++ ": " ++ (f0 ++ " dir already exists"))
            (.errorString (f0 ++ " dir already exists")))) := by
    intro hc
    rw [hunf]
    simp [dir.CreateDir, hc, dir.writeBack_self pp fs.dir P hp hP, error.Error]
  have hno : P.HasChild f0 = false →
      fs.Mkdir path
        = (⟨fs.dir.writeBack pp
              (P.withNodes (syncMap.Store P.nodes f0 (.Dir (dir.mk P.opt f0 []))))⟩,
            .ok ()) := by
    intro hc
    rw [hunf]
    simp [dir.CreateDir, hc]
  refine ⟨?_, ?_, hyes⟩
  · cases hc : P.HasChild f0 with
    | true => rw [hyes hc]; simp
    | false => rw [hno hc]; simp
  · intro hc
    have hl : syncMap.Load P.nodes f0 = none := (dir.HasChild_false_iff P f0).1 hc
    refine ⟨_, hno hc, ?_, ?_, ?_⟩
    · show (fs.dir.writeBack pp _).Find (pp ++ [f0]) = _
      rw [dir.Find_append pp _ _ [f0] hp (dir.Find_writeBack pp fs.dir P _ hp hP) (by simp)]
      exact dir.Find_single_store _ _ _ _
    · exact dir.writeBack_keeps NodeOf.sameNode NodeOf.sameNode_refl
        (fun c e h1 h2 => ⟨h1, h2⟩) pp fs.dir P _ hp hP rfl rfl
        (fun q n hq => ⟨n, dir.store_fresh_keeps P f0 _ hl q n hq, NodeOf.sameNode_refl n⟩)
    · exact dir.writeBack_only_new f0 pp fs.dir P _ hp hP
        (fun r n1 hr => dir.store_leaf_only_new P f0 _ (fun c hc => by cases hc; rfl) r n1 hr)

theorem restrictive_mkdir_creates_final_segment_witness :
    (dir.mk ⟨true⟩ "" [("a", .Dir (dir.mk ⟨true⟩ "a" []))]).opt.pFlagDisabled = true ∧
    (strings.Split "a/b" '/').getLast? = some "b" ∧
    (dir.mk ⟨true⟩ "" [("a", .Dir (dir.mk ⟨true⟩ "a" []))]).Find (strings.Split "a/b" '/').dropLast
      = .ok (.Dir (dir.mk ⟨true⟩ "a" [])) ∧
    (dir.mk ⟨true⟩ "a" []).HasChild "b" = false ∧
    fileSystem.Mkdir ⟨dir.mk ⟨true⟩ "" [("a", .Dir (dir.mk ⟨true⟩ "a" []))]⟩ "a/b"
      = (⟨dir.mk ⟨true⟩ "" [("a", .Dir (dir.mk ⟨true⟩ "a" [("b", .Dir (dir.mk ⟨true⟩ "b" []))]))]⟩,
          .ok ()) ∧
    ((fileSystem.Mkdir ⟨dir.mk ⟨true⟩ "" [("a", .Dir (dir.mk ⟨true⟩ "a" []))]⟩ "a/b").2 = .ok ()
      ↔ (dir.mk ⟨true⟩ "a" []).HasChild "b" = false) :=
  ⟨rfl, by decide, rfl, rfl, rfl,
    (restrictive_mkdir_creates_final_segment
      ⟨dir.mk ⟨true⟩ "" [("a", .Dir (dir.mk ⟨true⟩ "a" []))]⟩ "a/b" (dir.mk ⟨true⟩ "a" []) "b"
      rfl (by decide) rfl).1⟩

/-- C15. Empty segments are literal names: a path is split at every `/` with no
normalisation (a path with `k` separators gives `k + 1` segments, and joining
them with `/` gives the path back), and an empty segment is used as the child
name `""`: on a new permissive filesystem `Mkdir("a//b")` succeeds and creates
the directory `a`, a directory named `""` inside it and `b` inside that, so
`Find(["a", "", "b"])` succeeds while `Find(["a", "b"])` fails with a not-found
error. -/
theorem empty_segments_are_literal_names (path : String) :
    (strings.Split path '/').length = path.data.count '/' + 1 ∧
    "/".intercalate (strings.Split path '/') = path ∧
    strings.Split "a//b" '/' = ["a", "", "b"] ∧
    (NewFileSystem []).Mkdir "a//b"
      = (⟨dir.mk ⟨false⟩ "" [("a", .Dir (dir.mk ⟨false⟩ "a"
            [("", .Dir (dir.mk ⟨false⟩ "" [("b", .Dir (dir.mk ⟨false⟩ "b" []))]))]))]⟩,
          .ok ()) ∧
    ((NewFileSystem []).Mkdir "a//b").1.dir.Find ["a", "", "b"]
      = .ok (.Dir (dir.mk ⟨false⟩ "b" [])) ∧
    ((NewFileSystem []).Mkdir "a//b").1.dir.Find ["a", "b"] = .err (.pathNotFoundError ["b"]) ∧
    errors.Is (.pathNotFoundError ["b"]) PathNotFoundError = true :=
  ⟨by simp [strings.Split, splitChars_length], strings.Split_join path, by decide, rfl, rfl, rfl,
    rfl⟩

/-- C16. Nothing is ever removed or replaced: after `CreateDir`, `CreateFile`,
`CreatePath` (called on a directory `d`, or on the directory `D` found at `loc`
inside a tree `root`), after `File.Append` on a file child, and after `Mkdir`
and `WriteFile`, every segment list that `Find` resolved before the call still
resolves, to a node of the same kind and name, and a file's earlier content
is a leading part of its later content (`dir.KeepsAll`).  `Find` and `ReadFile`
mutate nothing.  A call that returns an error or panics is included. -/
theorem nothing_is_removed_or_replaced :
    (∀ (d : dir) (name : String), d.KeepsAll (d.CreateDir name).1) ∧
    (∀ (d : dir) (name data : String), d.KeepsAll (d.CreateFile name data).1) ∧
    (∀ (d : dir) (path : List String), d.KeepsAll (d.CreatePath path).1) ∧
    (∀ (f : file) (data : String), (NodeOf.File f : Node).persistsAs (.File (f.Append data))) ∧
    (∀ (root D : dir) (loc : List String) (name : String), root.descend loc = some D →
      root.KeepsAll (root.writeBack loc (D.CreateDir name).1)) ∧
    (∀ (root D : dir) (loc : List String) (name data : String), root.descend loc = some D →
      root.KeepsAll (root.writeBack loc (D.CreateFile name data).1)) ∧
    (∀ (root D : dir) (loc path : List String), root.descend loc = some D →
      root.KeepsAll (root.writeBack loc (D.CreatePath path).1)) ∧
    (∀ (root D : dir) (loc : List String) (name : String) (f : file) (data : String),
      root.descend loc = some D → syncMap.Load D.nodes name = some (.File f) →
      root.KeepsAll
        (root.writeBack loc
          (D.withNodes (syncMap.Store D.nodes name (.File (f.Append data)))))) ∧
    (∀ (fs : fileSystem) (path : String), fs.dir.KeepsAll (fs.Mkdir path).1.dir) ∧
    (∀ (fs : fileSystem) (path data : String),
      fs.dir.KeepsAll (fs.WriteFile path data).1.dir) := by
  refine ⟨fun d name => (dir.CreateDir_keeps d name).1,
    fun d name data => (dir.CreateFile_keeps d name data).1,
    dir.CreatePath_keeps, fun f data => ⟨rfl, data, rfl⟩, ?_, ?_, ?_, ?_,
    Mkdir_keeps, WriteFile_keeps⟩
  · intro root D loc name hD
    obtain ⟨hk, hn, ho⟩ := dir.CreateDir_keeps D name
    exact dir.KeepsAll_writeBack root D _ loc hD hn.symm ho.symm hk
  · intro root D loc name data hD
    obtain ⟨hk, hn, ho⟩ := dir.CreateFile_keeps D name data
    exact dir.KeepsAll_writeBack root D _ loc hD hn.symm ho.symm hk
  · intro root D loc path hD
    obtain ⟨ho, hn⟩ := dir.CreatePath_opt_name D path
    exact dir.KeepsAll_writeBack root D _ loc hD hn.symm ho.symm (dir.CreatePath_keeps D path)
  · intro root D loc name f data hD hl
    exact dir.KeepsAll_writeBack root D _ loc hD rfl rfl (dir.store_append_keeps D name f data hl)

theorem nothing_is_removed_or_replaced_witness :
    (fileSystem.mk (dir.mk ⟨false⟩ "" [("a", .Dir (dir.mk ⟨false⟩ "a"
        [("f", .File ⟨"x", "f"⟩)]))])).dir.Find ["a", "f"] = .ok (.File ⟨"x", "f"⟩) ∧
    (fileSystem.WriteFile ⟨dir.mk ⟨false⟩ "" [("a", .Dir (dir.mk ⟨false⟩ "a"
        [("f", .File ⟨"x", "f"⟩)]))]⟩ "a/f" "y").1.dir.Find ["a", "f"]
      = .ok (.File ⟨"xy", "f"⟩) ∧
    ∃ n1, (fileSystem.WriteFile ⟨dir.mk ⟨false⟩ "" [("a", .Dir (dir.mk ⟨false⟩ "a"
        [("f", .File ⟨"x", "f"⟩)]))]⟩ "a/f" "y").1.dir.Find ["a", "f"] = .ok n1
      ∧ (NodeOf.File ⟨"x", "f"⟩ : Node).persistsAs n1 :=
  ⟨rfl, rfl,
    nothing_is_removed_or_replaced.2.2.2.2.2.2.2.2.2
      ⟨dir.mk ⟨false⟩ "" [("a", .Dir (dir.mk ⟨false⟩ "a" [("f", .File ⟨"x", "f"⟩)]))]⟩
      "a/f" "y" ["a", "f"] (.File ⟨"x", "f"⟩) rfl⟩

/-- C17. Failed path creation leaves no partial path behind: if `d.CreatePath(p)`
returns an error, `d` is exactly what it was before the call; and a `Mkdir` or a
`WriteFile` that returns an error (in either mode, on any path) leaves the whole
filesystem unchanged. -/
theorem failed_createPath_changes_nothing (d d1 : dir) (p : List String) (e : error)
    (h : d.CreatePath p = (d1, .err e)) :
    d1 = d ∧
    (∀ (fs fs1 : fileSystem) (path : String) (e1 : error),
      fs.Mkdir path = (fs1, .err e1) → fs1 = fs) ∧
    (∀ (fs fs1 : fileSystem) (path data : String) (e1 : error),
      fs.WriteFile path data = (fs1, .err e1) → fs1 = fs) :=
  ⟨dir.CreatePath_err_unchanged p d d1 e h,
    fun fs fs1 path e1 h1 => Mkdir_err_unchanged fs fs1 path e1 h1,
    fun fs fs1 path data e1 h1 => WriteFile_err_unchanged fs fs1 path data e1 h1⟩

theorem failed_createPath_changes_nothing_witness :
    (dir.mk ⟨false⟩ "" [("a", .Dir (dir.mk ⟨false⟩ "a" [("f", .File ⟨"x", "f"⟩)]))]).CreatePath
        ["a", "f", "g"]
      = (dir.mk ⟨false⟩ "" [("a", .Dir (dir.mk ⟨false⟩ "a" [("f", .File ⟨"x", "f"⟩)]))],
          .err (.errorString "path is invalid: [f g]")) ∧
    dir.mk ⟨false⟩ "" [("a", .Dir (dir.mk ⟨false⟩ "a" [("f", .File ⟨"x", "f"⟩)]))]
      = dir.mk ⟨false⟩ "" [("a", .Dir (dir.mk ⟨false⟩ "a" [("f", .File ⟨"x", "f"⟩)]))] :=
  ⟨rfl, (failed_createPath_changes_nothing
      (dir.mk ⟨false⟩ "" [("a", .Dir (dir.mk ⟨false⟩ "a" [("f", .File ⟨"x", "f"⟩)]))])
      _ ["a", "f", "g"] (.errorString "path is invalid: [f g]") rfl).1⟩

/-- C18. A restrictive filesystem can never gain a node: after any finite
sequence of `Mkdir`, `WriteFile`, `ReadFile` and `PrettyPrint` calls on
`NewFileSystem(DisablePFlag())` the filesystem is still the empty one, its root
has no children and `PrettyPrint` gives the empty map; each `Mkdir` and
`WriteFile` on it either panics on the empty ancestor list or returns the
not-found error of the ancestor lookup. -/
theorem restrictive_filesystem_stays_empty (cs : List Call) :
    (NewFileSystem [DisablePFlag]).calls cs = NewFileSystem [DisablePFlag] ∧
    ((NewFileSystem [DisablePFlag]).calls cs).dir.nodes = [] ∧
    ((NewFileSystem [DisablePFlag]).calls cs).dir.PrettyPrint = [] ∧
    (∀ path, ((NewFileSystem [DisablePFlag]).Mkdir path).2 = .panic ∨
      ∃ q, ((NewFileSystem [DisablePFlag]).Mkdir path).2 = .err (.pathNotFoundError q)) ∧
    (∀ path data, ((NewFileSystem [DisablePFlag]).WriteFile path data).2 = .panic ∨
      ∃ q, ((NewFileSystem [DisablePFlag]).WriteFile path data).2
        = .err (.pathNotFoundError q)) := by
  have hstay : (NewFileSystem [DisablePFlag]).calls cs = NewFileSystem [DisablePFlag] := by
    unfold fileSystem.calls
    induction cs with
    | nil => rfl
    | cons c cs ih =>
      rw [List.foldl_cons]
      have hstep : (NewFileSystem [DisablePFlag]).call c = NewFileSystem [DisablePFlag] := by
        cases c with
        | Mkdir path =>
          rcases restrictive_empty_Mkdir path with h | ⟨q, h⟩ <;>
            simp [fileSystem.call, h]
        | WriteFile path data =>
          rcases restrictive_empty_WriteFile path data with h | ⟨q, h⟩ <;>
            simp [fileSystem.call, h]
        | ReadFile path => rfl
        | PrettyPrint => rfl
      rw [hstep]
      exact ih
  refine ⟨hstay, by rw [hstay]; rfl, by rw [hstay]; rfl, ?_, ?_⟩
  · intro path
    rcases restrictive_empty_Mkdir path with h | ⟨q, h⟩
    · left; rw [h]
    · right; exact ⟨q, by rw [h]⟩
  · intro path data
    rcases restrictive_empty_WriteFile path data with h | ⟨q, h⟩
    · left; rw [h]
    · right; exact ⟨q, by rw [h]⟩

/-- C19. Key/name consistency: in every state built from `NewFileSystem` by
sequential calls of the `FileSystem`, `Dir` and `File` operations, the root has
the empty name and every node stored in a child map, at any depth, is stored
under its own name; so the last segment of a segment list that `Find` resolves
is the `Name()` of the node returned. -/
theorem key_name_consistency (fs : fileSystem) (h : Constructible fs) :
    fs.dir.Name = "" ∧ fs.dir.WellNamed ∧
    (∀ p n, fs.dir.Find p = .ok n → p.getLast? = some n.Name) :=
  ⟨Constructible.root_name fs h, Constructible.keysAreNames fs h,
    fun p n hp => dir.Find_name p fs.dir n (Constructible.keysAreNames fs h) hp⟩

theorem key_name_consistency_witness :
    Constructible ((NewFileSystem []).WriteFile "a/b" "x").1 ∧
    ((NewFileSystem []).WriteFile "a/b" "x").1.dir.Find ["a", "b"] = .ok (.File ⟨"x", "b"⟩) ∧
    ((NewFileSystem []).WriteFile "a/b" "x").1.dir.Name = "" ∧
    ["a", "b"].getLast? = some (NodeOf.Name (.File ⟨"x", "b"⟩ : Node)) :=
  ⟨.writeFile _ "a/b" "x" (.new []), rfl,
    (key_name_consistency _ (.writeFile _ "a/b" "x" (.new []))).1,
    (key_name_consistency _ (.writeFile _ "a/b" "x" (.new []))).2.2 ["a", "b"] _ rfl⟩

end filesystem
